import Mathlib

/-!
Verification of the polymarket-trendwatch pipeline (src/ai_parser.py,
src/content_preprocessor.py, src/main_pipeline.py).

Strings are modelled as `List Char`.  Every Python function that the claims
touch is translated to an executable Lean definition that follows the source
line by line; external library calls (`json.loads`, `re.sub`, `str.strip`,
`str.find`, `str.split`) are modelled from their documented behaviour.
-/

/-! ## Character classes and basic string primitives -/

/-- The whitespace characters that the JSON grammar skips (RFC 8259 / CPython
`json` module): space, tab, newline, carriage return. -/
def isJsonWs (c : Char) : Bool :=
  c = ' ' || c = '\t' || c = '\n' || c = '\r'

/-- Model of the character class used by Python `str.strip()` (no argument)
and by the regex class `\s`: the JSON whitespace plus vertical tab, form feed
and the other ASCII/Latin-1 characters CPython treats as whitespace.
(The rarely used astral Unicode space characters are not modelled; none of the
claims exercises them.) -/
def isPyWs (c : Char) : Bool :=
  c = ' ' || c = '\t' || c = '\n' || c = '\r' || c = Char.ofNat 11 || c = Char.ofNat 12 ||
  c = Char.ofNat 28 || c = Char.ofNat 29 || c = Char.ofNat 30 || c = Char.ofNat 31 ||
  c = Char.ofNat 133 || c = Char.ofNat 160

theorem jsonWs_pyWs {c : Char} (h : isJsonWs c = true) : isPyWs c = true := by
  have hc : ((c = ' ' ∨ c = '\t') ∨ c = '\n') ∨ c = '\r' := by
    simpa [isJsonWs] using h
  rcases hc with ((hc | hc) | hc) | hc <;> subst hc <;> decide

/-- Strip from the right: remove the trailing run of characters satisfying `p`. -/
def dropEndWhile (p : Char → Bool) (l : List Char) : List Char :=
  (l.reverse.dropWhile p).reverse

/-- Model of Python `str.strip()` (both ends, default whitespace). -/
def stripPy (l : List Char) : List Char :=
  dropEndWhile isPyWs (l.dropWhile isPyWs)

/-- Strip JSON whitespace from both ends (used to model the fact that
`json.loads` skips leading whitespace and permits trailing whitespace). -/
def stripJson (l : List Char) : List Char :=
  dropEndWhile isJsonWs (l.dropWhile isJsonWs)

/-- Model of Python `str.find(pat)`: index of the first occurrence of `pat`,
`none` standing for Python's `-1`. -/
def findSub (pat : List Char) : List Char → Option Nat
  | [] => if pat.isPrefixOf ([] : List Char) then some 0 else none
  | c :: t => if pat.isPrefixOf (c :: t) then some 0 else (findSub pat t).map (· + 1)

/-- Model of Python's `pat in s` substring test. -/
def hasSub (pat s : List Char) : Bool := (findSub pat s).isSome

/-! ## The chunkers (`AIPolymarketParser.chunk_content_by_markets`,
`AIPolymarketParser.chunk_content`, src/ai_parser.py lines 126-200) -/

/-- `'\n'.join`, i.e. `List.intercalate ['\n']`. -/
def joinNL (xs : List (List Char)) : List Char := List.intercalate ['\n'] xs

/-- `content.split('\n')`. -/
def splitNL (s : List Char) : List (List Char) := s.splitOn '\n'

/-- The market-boundary indicators of `chunk_content_by_markets`
(src/ai_parser.py lines 143-145). -/
def marketIndicators : List (List Char) :=
  ["will ".data, "what ".data, "when ".data, "who ".data, "how ".data]

/-- `any(indicator in line.lower() for indicator in [...])`. -/
def isBoundaryLine (line : List Char) : Bool :=
  marketIndicators.any (fun ind => hasSub ind (line.map Char.toLower))

/-- The boundary scan of `chunk_content_by_markets` (lines 140-146): indices of
lines that contain a market indicator. -/
def market_boundaries (lines : List (List Char)) : List Nat :=
  (List.range lines.length).filter (fun i => isBoundaryLine (lines.getD i []))

/-- `chunk_size = len(lines) // num_chunks` of `chunk_content` (line 191). -/
def naiveChunkSize (content : List Char) (N : Nat) : Nat :=
  (splitNL content).length / N

/-- `start_idx = i * chunk_size` (line 195). -/
def naiveStart (content : List Char) (N i : Nat) : Nat := i * naiveChunkSize content N

/-- `end_idx = start_idx + chunk_size if i < num_chunks - 1 else len(lines)` (line 196). -/
def naiveEnd (content : List Char) (N i : Nat) : Nat :=
  if i < N - 1 then naiveStart content N i + naiveChunkSize content N
  else (splitNL content).length

/-- `AIPolymarketParser.chunk_content` (src/ai_parser.py lines 179-200):
naive equal-size line-count split. -/
def chunk_content (content : List Char) (num_chunks : Nat) : List (List Char) :=
  (List.range num_chunks).map (fun i =>
    joinNL (((splitNL content).take (naiveEnd content num_chunks i)).drop
      (naiveStart content num_chunks i)))

/-- `chunk_size = len(market_boundaries) // num_chunks` of
`chunk_content_by_markets` (line 154). -/
def mbChunkSize (content : List Char) (N : Nat) : Nat :=
  (market_boundaries (splitNL content)).length / N

/-- `start_boundary = i * chunk_size` (line 158). -/
def mbStartBoundary (content : List Char) (N i : Nat) : Nat := i * mbChunkSize content N

/-- `end_boundary = start_boundary + chunk_size if i < num_chunks - 1 else
len(market_boundaries)` (line 159). -/
def mbEndBoundary (content : List Char) (N i : Nat) : Nat :=
  if i < N - 1 then mbStartBoundary content N i + mbChunkSize content N
  else (market_boundaries (splitNL content)).length

/-- `start_line` (lines 162-165): 0 for the first chunk, else the line index of
the chunk's first boundary. -/
def mbStartLine (content : List Char) (N i : Nat) : Nat :=
  if i = 0 then 0
  else (market_boundaries (splitNL content)).getD (mbStartBoundary content N i) 0

/-- `end_line` (lines 167-170): `len(lines)` for the last chunk, else the line
index of the next chunk's first boundary. -/
def mbEndLine (content : List Char) (N i : Nat) : Nat :=
  if i = N - 1 then (splitNL content).length
  else (market_boundaries (splitNL content)).getD (mbEndBoundary content N i) 0

/-- `AIPolymarketParser.chunk_content_by_markets` (src/ai_parser.py lines
126-177): split at market boundaries, falling back to `chunk_content` when
fewer boundaries than requested chunks exist. -/
def chunk_content_by_markets (content : List Char) (num_chunks : Nat) : List (List Char) :=
  if (market_boundaries (splitNL content)).length < num_chunks then
    chunk_content content num_chunks
  else
    (List.range num_chunks).map (fun i =>
      joinNL (((splitNL content).take (mbEndLine content num_chunks i)).drop
        (mbStartLine content num_chunks i)))

/-! ### Generic slicing lemmas -/

theorem slice_concat {α : Type} (X : List α) (a b : Nat) (hab : a ≤ b) :
    (X.take b).drop a ++ X.drop b = X.drop a := by
  by_cases hX : a ≤ X.length
  · conv_rhs => rw [← List.take_append_drop b X]
    rw [List.drop_append_of_le_length]
    rw [List.length_take]
    omega
  · push_neg at hX
    have e1 : (X.take b).drop a = [] := by
      rw [List.drop_eq_nil_iff, List.length_take]; omega
    have e2 : X.drop b = [] := List.drop_eq_nil_iff.mpr (by omega)
    have e3 : X.drop a = [] := List.drop_eq_nil_iff.mpr (by omega)
    simp [e1, e2, e3]

theorem slice_concat' {α : Type} (l : List α) (a b c : Nat) (hab : a ≤ b) (hbc : b ≤ c) :
    ((l.take b).drop a) ++ ((l.take c).drop b) = (l.take c).drop a := by
  have h1 : l.take b = (l.take c).take b := by
    rw [List.take_take, Nat.min_eq_left hbc]
  rw [h1]
  exact slice_concat (l.take c) a b hab

theorem slice_self {α : Type} (l : List α) (n : Nat) : (l.take n).drop n = [] := by
  rw [List.drop_eq_nil_iff, List.length_take]
  omega

/-- Monotone step hypothesis implies monotone on the range. -/
theorem mono_of_step (p : Nat → Nat) (N : Nat) (h : ∀ i, i < N → p i ≤ p (i + 1)) :
    ∀ j, j ≤ N → ∀ i, i ≤ j → p i ≤ p j := by
  intro j
  induction j with
  | zero =>
    intro _ i hi
    have hi0 : i = 0 := by omega
    simp [hi0]
  | succ k ih =>
    intro hkN i hik
    rcases Nat.eq_or_lt_of_le hik with he | hl
    · rw [he]
    · have h1 : p i ≤ p k := ih (by omega) i (by omega)
      have h2 : p k ≤ p (k + 1) := h k (by omega)
      omega

/-- Flattening consecutive slices of `l` given by cut points `p 0 ≤ p 1 ≤ ... ≤ p N`
yields the slice from `p 0` to `p N`. -/
theorem flatten_slices {α : Type} (N : Nat) (p : Nat → Nat) (l : List α)
    (hmono : ∀ i, i < N → p i ≤ p (i + 1)) :
    ((List.range N).map (fun i => (l.take (p (i + 1))).drop (p i))).flatten
      = (l.take (p N)).drop (p 0) := by
  induction N with
  | zero => simp [slice_self]
  | succ n ih =>
    rw [List.range_succ, List.map_append, List.flatten_append]
    rw [ih (fun i hi => hmono i (by omega))]
    simp only [List.map_cons, List.map_nil, List.flatten_cons, List.flatten_nil,
      List.append_nil]
    exact slice_concat' l (p 0) (p n) (p (n + 1))
      (mono_of_step p (n + 1) (fun i hi => hmono i hi) n (by omega) 0 (by omega))
      (hmono n (by omega))

theorem intercalate_cons_cons (sep a b : List Char) (t : List (List Char)) :
    List.intercalate sep (a :: b :: t) = a ++ sep ++ List.intercalate sep (b :: t) := by
  simp [List.intercalate, List.intersperse]

theorem intercalate_single (sep a : List Char) : List.intercalate sep [a] = a := by
  simp [List.intercalate]

theorem intercalate_append_of_ne_nil (sep : List Char) :
    ∀ (a b : List (List Char)), a ≠ [] → b ≠ [] →
    List.intercalate sep (a ++ b) =
      List.intercalate sep a ++ sep ++ List.intercalate sep b := by
  intro a
  induction a with
  | nil => intro b h _; exact absurd rfl h
  | cons x xs ih =>
    intro b _ hb
    cases xs with
    | nil =>
      cases b with
      | nil => exact absurd rfl hb
      | cons y ys =>
        rw [List.singleton_append, intercalate_cons_cons, intercalate_single]
    | cons z zs =>
      have e1 : (x :: z :: zs) ++ b = x :: z :: (zs ++ b) := by simp
      rw [e1, intercalate_cons_cons]
      have e2 : z :: (zs ++ b) = (z :: zs) ++ b := by simp
      rw [e2, ih b (by simp) hb, intercalate_cons_cons]
      simp [List.append_assoc]

/-- Newline-joining chunks that are themselves newline-joins of nonempty groups
of lines equals the newline-join of the concatenation of the groups. -/
theorem joinNL_map_joinNL (gs : List (List (List Char)))
    (h : ∀ g ∈ gs, g ≠ []) :
    joinNL (gs.map joinNL) = joinNL gs.flatten := by
  induction gs with
  | nil => rfl
  | cons g gs ih =>
    cases gs with
    | nil => simp [joinNL, intercalate_single]
    | cons g2 gs2 =>
      have hg : g ≠ [] := h g (by simp)
      have hg2 : g2 ≠ [] := h g2 (by simp)
      have hflat : g2 ++ gs2.flatten ≠ [] := by
        cases g2 with
        | nil => exact absurd rfl hg2
        | cons x xs => simp
      have ihr := ih (fun g' hg' => h g' (by simp [hg']))
      simp only [List.map_cons, List.flatten_cons] at ihr ⊢
      simp only [joinNL] at ihr ⊢
      rw [intercalate_cons_cons, ihr,
        intercalate_append_of_ne_nil ['\n'] g (g2 ++ gs2.flatten) hg hflat]

theorem joinNL_splitNL (content : List Char) : joinNL (splitNL content) = content := by
  have := @List.intercalate_splitOn Char content '\n' _
  simpa [joinNL, splitNL] using this

theorem splitNL_ne_nil (content : List Char) : splitNL content ≠ [] :=
  List.splitOnP_ne_nil _ content

/-! ### Facts about `market_boundaries` -/

theorem market_boundaries_sorted (lines : List (List Char)) :
    (market_boundaries lines).Pairwise (· < ·) :=
  List.Pairwise.filter _ (List.pairwise_lt_range lines.length)

theorem market_boundaries_lt (lines : List (List Char)) :
    ∀ x ∈ market_boundaries lines, x < lines.length := by
  intro x hx
  have := List.mem_filter.mp hx
  exact List.mem_range.mp this.1

theorem getD_lt_getD_of_sorted (l : List Nat) (hs : l.Pairwise (· < ·))
    (i j : Nat) (hij : i < j) (hj : j < l.length) :
    l.getD i 0 < l.getD j 0 := by
  have hi : i < l.length := by omega
  rw [List.getD_eq_getElem?_getD, List.getD_eq_getElem?_getD,
    List.getElem?_eq_getElem hi, List.getElem?_eq_getElem hj]
  simp only [Option.getD_some]
  have := List.pairwise_iff_get.mp hs ⟨i, hi⟩ ⟨j, hj⟩ hij
  simpa using this

theorem getD_mem_of_lt (l : List Nat) (i : Nat) (hi : i < l.length) :
    l.getD i 0 ∈ l := by
  rw [List.getD_eq_getElem?_getD, List.getElem?_eq_getElem hi]
  exact List.getElem_mem hi

theorem getD_ge_index (l : List Nat) (hs : l.Pairwise (· < ·)) (i : Nat) (hi : i < l.length) :
    i ≤ l.getD i 0 := by
  induction i with
  | zero => omega
  | succ k ih =>
    have h1 : k ≤ l.getD k 0 := ih (by omega)
    have h2 : l.getD k 0 < l.getD (k + 1) 0 :=
      getD_lt_getD_of_sorted l hs k (k + 1) (by omega) hi
    omega

/-! ### Round-trip lemmas for the chunkers -/

theorem slice_ne_nil {α : Type} (l : List α) (s e : Nat) (h1 : s < e) (h2 : e ≤ l.length) :
    (l.take e).drop s ≠ [] := by
  have hlen : ((l.take e).drop s).length = e - s := by
    rw [List.length_drop, List.length_take]; omega
  intro hnil
  rw [hnil] at hlen
  simp only [List.length_nil] at hlen
  omega

/-- Joining slices that cut `lines` at strictly increasing cut points from 0 to
`lines.length` reproduces the newline-join of `lines`. -/
theorem joinNL_slices (lines : List (List Char)) (N : Nat) (p : Nat → Nat)
    (hp0 : p 0 = 0) (hpN : p N = lines.length)
    (hmono : ∀ i, i < N → p i < p (i + 1))
    (hle : ∀ i, i ≤ N → p i ≤ lines.length) :
    joinNL ((List.range N).map (fun i => joinNL ((lines.take (p (i + 1))).drop (p i))))
      = joinNL lines := by
  have hmm : (List.range N).map (fun i => joinNL ((lines.take (p (i + 1))).drop (p i)))
      = ((List.range N).map (fun i => (lines.take (p (i + 1))).drop (p i))).map joinNL := by
    rw [List.map_map]
    rfl
  rw [hmm, joinNL_map_joinNL]
  · rw [flatten_slices N p lines (fun i hi => le_of_lt (hmono i hi)), hp0, hpN]
    rw [List.take_length, List.drop_zero]
  · intro g hg
    rw [List.mem_map] at hg
    obtain ⟨i, hi, rfl⟩ := hg
    rw [List.mem_range] at hi
    exact slice_ne_nil lines (p i) (p (i + 1)) (hmono i hi) (hle (i + 1) (by omega))

theorem chunk_content_length (content : List Char) (N : Nat) :
    (chunk_content content N).length = N := by
  simp [chunk_content]

theorem chunk_content_roundtrip (content : List Char) (N : Nat) (h1 : 1 ≤ N)
    (h2 : N ≤ (splitNL content).length) :
    joinNL (chunk_content content N) = content := by
  have hcs1 : 1 ≤ naiveChunkSize content N :=
    (Nat.one_le_div_iff (by omega)).mpr h2
  have hNcs : N * naiveChunkSize content N ≤ (splitNL content).length := by
    rw [Nat.mul_comm]
    exact Nat.div_mul_le_self _ _
  have hmap : chunk_content content N =
      (List.range N).map (fun i =>
        joinNL (((splitNL content).take
            (if N ≤ i + 1 then (splitNL content).length else (i + 1) * naiveChunkSize content N)).drop
          (if N ≤ i then (splitNL content).length else i * naiveChunkSize content N))) := by
    unfold chunk_content
    apply List.map_congr_left
    intro i hi
    rw [List.mem_range] at hi
    have hstart : naiveStart content N i
        = if N ≤ i then (splitNL content).length else i * naiveChunkSize content N := by
      rw [if_neg (by omega)]
      rfl
    have hend : naiveEnd content N i
        = if N ≤ i + 1 then (splitNL content).length
          else (i + 1) * naiveChunkSize content N := by
      unfold naiveEnd
      by_cases hc : i < N - 1
      · rw [if_pos hc, if_neg (by omega)]
        unfold naiveStart
        ring
      · rw [if_neg hc, if_pos (by omega)]
    rw [hstart, hend]
  rw [hmap]
  rw [joinNL_slices (splitNL content) N
    (fun i => if N ≤ i then (splitNL content).length else i * naiveChunkSize content N)]
  · exact joinNL_splitNL content
  · simp only [if_neg (show ¬ N ≤ 0 by omega)]
    ring
  · simp only [if_pos (le_refl N)]
  · intro i hi
    by_cases hc : N ≤ i + 1
    · rw [if_pos hc, if_neg (by omega)]
      have : i = N - 1 := by omega
      subst this
      have h3 : (N - 1) * naiveChunkSize content N + naiveChunkSize content N
          = N * naiveChunkSize content N := by
        have : N - 1 + 1 = N := by omega
        calc (N - 1) * naiveChunkSize content N + naiveChunkSize content N
            = (N - 1 + 1) * naiveChunkSize content N := by ring
          _ = N * naiveChunkSize content N := by rw [this]
      omega
    · rw [if_neg hc, if_neg (by omega)]
      have : (i + 1) * naiveChunkSize content N
          = i * naiveChunkSize content N + naiveChunkSize content N := by ring
      omega
  · intro i _
    by_cases hc : N ≤ i
    · rw [if_pos hc]
    · rw [if_neg hc]
      calc i * naiveChunkSize content N ≤ N * naiveChunkSize content N := by
            exact Nat.mul_le_mul_right _ (by omega)
        _ ≤ (splitNL content).length := hNcs

theorem mb_length_le (content : List Char) :
    (market_boundaries (splitNL content)).length ≤ (splitNL content).length := by
  unfold market_boundaries
  calc ((List.range (splitNL content).length).filter _).length
      ≤ (List.range (splitNL content).length).length := List.length_filter_le _ _
    _ = (splitNL content).length := List.length_range _

/-- The cut points used by the boundary-based path: 0, then the line of each
group's first boundary, then the total line count. -/
def boundaryCut (L : Nat) (mb : List Nat) (N j : Nat) : Nat :=
  if j = 0 then 0 else if N ≤ j then L else mb.getD (j * (mb.length / N)) 0

theorem boundaryCut_bounds (L : Nat) (mb : List Nat) (N : Nat)
    (h1 : 1 ≤ N) (hB : N ≤ mb.length)
    (hsort : mb.Pairwise (· < ·)) (hlt : ∀ x ∈ mb, x < L) :
    (∀ i, i < N → boundaryCut L mb N i < boundaryCut L mb N (i + 1)) ∧
    (∀ i, i ≤ N → boundaryCut L mb N i ≤ L) := by
  have hcs1 : 1 ≤ mb.length / N := (Nat.one_le_div_iff (by omega)).mpr hB
  have hNcs : N * (mb.length / N) ≤ mb.length := by
    rw [Nat.mul_comm]
    exact Nat.div_mul_le_self _ _
  have hidx : ∀ k, 1 ≤ k → k ≤ N - 1 → k * (mb.length / N) < mb.length := by
    intro k hk1 hk2
    have hle1 : k * (mb.length / N) ≤ (N - 1) * (mb.length / N) :=
      Nat.mul_le_mul_right _ hk2
    have h3 : (N - 1) * (mb.length / N) + mb.length / N = N * (mb.length / N) := by
      have hN : N - 1 + 1 = N := by omega
      calc (N - 1) * (mb.length / N) + mb.length / N
          = (N - 1 + 1) * (mb.length / N) := by ring
        _ = N * (mb.length / N) := by rw [hN]
    omega
  have hgetlt : ∀ k, k < mb.length → mb.getD k 0 < L :=
    fun k hk => hlt _ (getD_mem_of_lt mb k hk)
  have hL1 : 1 ≤ L := by
    have hBpos : 0 < mb.length := by omega
    have := hgetlt 0 hBpos
    omega
  constructor
  · intro i hi
    by_cases h0 : i = 0
    · subst h0
      have e0 : boundaryCut L mb N 0 = 0 := by simp [boundaryCut]
      rw [e0]
      by_cases hN1 : N ≤ 1
      · have e1 : boundaryCut L mb N 1 = L := by
          simp only [boundaryCut, if_neg (show ¬ (1 : Nat) = 0 by omega), if_pos hN1]
        rw [e1]
        omega
      · have e1 : boundaryCut L mb N 1 = mb.getD (1 * (mb.length / N)) 0 := by
          simp only [boundaryCut, if_neg (show ¬ (1 : Nat) = 0 by omega), if_neg hN1]
        rw [e1]
        have hcsB : 1 * (mb.length / N) < mb.length := hidx 1 (by omega) (by omega)
        have := getD_ge_index mb hsort (1 * (mb.length / N)) hcsB
        omega
    · have es : boundaryCut L mb N i = mb.getD (i * (mb.length / N)) 0 := by
        simp only [boundaryCut, if_neg h0, if_neg (show ¬ N ≤ i by omega)]
      rw [es]
      by_cases hN1 : N ≤ i + 1
      · have e1 : boundaryCut L mb N (i + 1) = L := by
          simp only [boundaryCut, if_neg (show ¬ i + 1 = 0 by omega), if_pos hN1]
        rw [e1]
        exact hgetlt _ (hidx i (by omega) (by omega))
      · have e1 : boundaryCut L mb N (i + 1) = mb.getD ((i + 1) * (mb.length / N)) 0 := by
          simp only [boundaryCut, if_neg (show ¬ i + 1 = 0 by omega), if_neg hN1]
        rw [e1]
        refine getD_lt_getD_of_sorted mb hsort _ _ ?hij ?hj
        · have : (i + 1) * (mb.length / N) = i * (mb.length / N) + mb.length / N := by ring
          omega
        · exact hidx (i + 1) (by omega) (by omega)
  · intro i _
    by_cases h0 : i = 0
    · simp [boundaryCut, h0]
    · by_cases hNi : N ≤ i
      · simp only [boundaryCut, if_neg h0, if_pos hNi]
        omega
      · simp only [boundaryCut, if_neg h0, if_neg hNi]
        exact le_of_lt (hgetlt _ (hidx i (by omega) (by omega)))

/-- Round-trip for the boundary-based path, stated abstractly over the line
list and the (sorted, in-range) boundary list. -/
theorem boundary_slices_roundtrip (lines : List (List Char)) (mb : List Nat) (N : Nat)
    (h1 : 1 ≤ N) (hB : N ≤ mb.length)
    (hsort : mb.Pairwise (· < ·)) (hlt : ∀ x ∈ mb, x < lines.length) :
    joinNL ((List.range N).map (fun i =>
      joinNL ((lines.take (if i = N - 1 then lines.length
          else mb.getD (if i < N - 1 then i * (mb.length / N) + mb.length / N
            else mb.length) 0)).drop
        (if i = 0 then 0 else mb.getD (i * (mb.length / N)) 0))))
      = joinNL lines := by
  obtain ⟨hmono, hle⟩ := boundaryCut_bounds lines.length mb N h1 hB hsort hlt
  have hcongr : ∀ i ∈ List.range N,
      joinNL ((lines.take (if i = N - 1 then lines.length
          else mb.getD (if i < N - 1 then i * (mb.length / N) + mb.length / N
            else mb.length) 0)).drop
        (if i = 0 then 0 else mb.getD (i * (mb.length / N)) 0))
      = joinNL ((lines.take (boundaryCut lines.length mb N (i + 1))).drop
          (boundaryCut lines.length mb N i)) := by
    intro i hi
    rw [List.mem_range] at hi
    have hstart : (if i = 0 then 0 else mb.getD (i * (mb.length / N)) 0)
        = boundaryCut lines.length mb N i := by
      by_cases h0 : i = 0
      · simp [boundaryCut, h0]
      · simp only [boundaryCut, if_neg h0, if_neg (show ¬ N ≤ i by omega)]
    have hend : (if i = N - 1 then lines.length
          else mb.getD (if i < N - 1 then i * (mb.length / N) + mb.length / N
            else mb.length) 0)
        = boundaryCut lines.length mb N (i + 1) := by
      by_cases hlast : i = N - 1
      · simp only [if_pos hlast, boundaryCut, if_neg (show ¬ i + 1 = 0 by omega),
          if_pos (show N ≤ i + 1 by omega)]
      · have hlt2 : i < N - 1 := by omega
        simp only [if_neg hlast, if_pos hlt2, boundaryCut,
          if_neg (show ¬ i + 1 = 0 by omega), if_neg (show ¬ N ≤ i + 1 by omega)]
        have : (i + 1) * (mb.length / N) = i * (mb.length / N) + mb.length / N := by ring
        rw [this]
    rw [hstart, hend]
  rw [List.map_congr_left hcongr]
  exact joinNL_slices lines N (boundaryCut lines.length mb N)
    (by simp [boundaryCut])
    (by simp only [boundaryCut, if_neg (show ¬ N = 0 by omega), if_pos (le_refl N)])
    hmono hle

/-! ## Claim C1: chunker round-trip -/

/-- C1 counterexample: for `content = "a"` and `N = 2` (a chunk count ≥ 1),
the naive line-count fallback produces the chunks `["", "a"]`, whose
newline-join is `"\na"`, not the original `"a"`.  So the round-trip property
fails as stated. -/
theorem c1_roundtrip_counterexample :
    1 ≤ 2 ∧ joinNL (chunk_content_by_markets "a".data 2) ≠ "a".data := by
  constructor
  · decide
  · decide

/-- C1 (amended): for every input text and every chunk count N ≥ 1 such that
the text has at least N lines, newline-joining the chunks returned by
`chunk_content_by_markets` reproduces the input exactly — in both the
boundary-based path and the naive line-count fallback path.  (When the text
has fewer lines than N, the fallback emits empty chunks and the join gains
extra newlines.) -/
theorem c1_roundtrip_amended (content : List Char) (N : Nat) (h1 : 1 ≤ N)
    (h2 : N ≤ (splitNL content).length) :
    joinNL (chunk_content_by_markets content N) = content := by
  unfold chunk_content_by_markets
  by_cases hc : (market_boundaries (splitNL content)).length < N
  · rw [if_pos hc]
    exact chunk_content_roundtrip content N h1 h2
  · rw [if_neg hc]
    push_neg at hc
    have hcongr : ∀ i ∈ List.range N,
        joinNL (((splitNL content).take (mbEndLine content N i)).drop
          (mbStartLine content N i))
        = joinNL (((splitNL content).take
            (if i = N - 1 then (splitNL content).length
              else (market_boundaries (splitNL content)).getD
                (if i < N - 1 then
                    i * ((market_boundaries (splitNL content)).length / N)
                      + (market_boundaries (splitNL content)).length / N
                  else (market_boundaries (splitNL content)).length) 0)).drop
            (if i = 0 then 0
              else (market_boundaries (splitNL content)).getD
                (i * ((market_boundaries (splitNL content)).length / N)) 0)) := by
      intro i _
      rfl
    rw [List.map_congr_left hcongr]
    conv_rhs => rw [← joinNL_splitNL content]
    exact boundary_slices_roundtrip (splitNL content) (market_boundaries (splitNL content))
      N h1 hc (market_boundaries_sorted _) (market_boundaries_lt _)

/-- Witness for `c1_roundtrip_amended` at the concrete input `"a\nb\nc"`, `N = 2`. -/
theorem c1_roundtrip_amended_witness :
    joinNL (chunk_content_by_markets "a\nb\nc".data 2) = "a\nb\nc".data :=
  c1_roundtrip_amended "a\nb\nc".data 2 (by decide) (by decide)

/-! ## Claim C4: chunker fallback condition and boundary-path structure -/

/-- C4: `chunk_content_by_markets(content, N)` falls back to the naive
equal-size line-count split exactly when the number of detected boundary lines
is strictly less than N; in every case it returns a list of exactly N chunks;
in the boundary path, the boundary indices are grouped with group size
`floor(B/N)` (last group absorbing the remainder), the first chunk starts at
line 0, the last chunk ends at the final line, and each intermediate chunk
starts at the line of its group's first boundary index and ends at the line of
the next group's first boundary index. -/
theorem c4_chunker_structure (content : List Char) (N : Nat) (h1 : 1 ≤ N) :
    (chunk_content_by_markets content N).length = N ∧
    ((market_boundaries (splitNL content)).length < N →
      chunk_content_by_markets content N = chunk_content content N) ∧
    (N ≤ (market_boundaries (splitNL content)).length →
      chunk_content_by_markets content N
        = (List.range N).map (fun i =>
            joinNL (((splitNL content).take (mbEndLine content N i)).drop
              (mbStartLine content N i)))) ∧
    mbChunkSize content N = (market_boundaries (splitNL content)).length / N ∧
    mbStartLine content N 0 = 0 ∧
    mbEndLine content N (N - 1) = (splitNL content).length ∧
    (∀ i, 1 ≤ i → i < N →
      mbStartLine content N i
        = (market_boundaries (splitNL content)).getD
            (i * ((market_boundaries (splitNL content)).length / N)) 0) ∧
    (∀ i, i < N - 1 →
      mbEndLine content N i
        = (market_boundaries (splitNL content)).getD
            ((i + 1) * ((market_boundaries (splitNL content)).length / N)) 0) := by
  refine ⟨?hlen, ?hfb, ?hbd, rfl, ?hs0, ?heN, ?hsi, ?hei⟩
  · unfold chunk_content_by_markets
    by_cases hc : (market_boundaries (splitNL content)).length < N
    · rw [if_pos hc, chunk_content_length]
    · rw [if_neg hc]
      simp
  · intro hc
    unfold chunk_content_by_markets
    rw [if_pos hc]
  · intro hc
    unfold chunk_content_by_markets
    rw [if_neg (by omega)]
  · simp [mbStartLine]
  · simp [mbEndLine]
  · intro i hi1 hiN
    simp only [mbStartLine, if_neg (show ¬ i = 0 by omega)]
    rfl
  · intro i hi
    simp only [mbEndLine, if_neg (show ¬ i = N - 1 by omega)]
    simp only [mbEndBoundary, if_pos hi]
    have : (i + 1) * ((market_boundaries (splitNL content)).length / N)
        = i * ((market_boundaries (splitNL content)).length / N)
          + (market_boundaries (splitNL content)).length / N := by ring
    rw [this]
    rfl

/-- Witness for `c4_chunker_structure`: at `content = "will a\nwill b\nx"`,
`N = 2`, the chunker takes the boundary path and returns exactly 2 chunks. -/
theorem c4_chunker_structure_witness :
    (chunk_content_by_markets "will a\nwill b\nx".data 2).length = 2 :=
  (c4_chunker_structure "will a\nwill b\nx".data 2 (by decide)).1

/-! ## JSON values and a model of CPython `json.loads`

`json.loads` is an external library; it is modelled here from its documented
behaviour (RFC 8259 plus CPython's extensions `NaN`/`Infinity`/`-Infinity`).
Numbers are kept in exact lexeme form (the claims never compare an int with a
float), objects are insertion-ordered key/value lists with CPython's
last-value-wins duplicate handling. -/

inductive Json where
  | null : Json
  | bool (b : Bool) : Json
  | num (lexeme : List Char) : Json
  | str (s : List Char) : Json
  | arr (xs : List Json) : Json
  | obj (kvs : List (List Char × Json)) : Json

/-- Hexadecimal digit value. -/
def hexVal (c : Char) : Option Nat :=
  if c.isDigit then some (c.toNat - '0'.toNat)
  else if 'a' ≤ c ∧ c ≤ 'f' then some (c.toNat - 'a'.toNat + 10)
  else if 'A' ≤ c ∧ c ≤ 'F' then some (c.toNat - 'A'.toNat + 10)
  else none

/-- Scan the raw span of a JSON string (input starts after the opening quote):
everything up to the first unescaped closing quote, kept verbatim.  Returns
the span and the text after the closing quote. -/
def rawStringSpan : List Char → Option (List Char × List Char)
  | [] => none
  | c :: rest =>
    if c = '"' then some ([], rest)
    else if c = '\\' then
      (match rest with
       | e :: rest2 =>
         (match rawStringSpan rest2 with
          | some (span, r) => some ('\\' :: e :: span, r)
          | none => none)
       | [] => none)
    else
      (match rawStringSpan rest with
       | some (span, r) => some (c :: span, r)
       | none => none)

/-- Decode the escapes of a raw string span (strict mode: raw control
characters are rejected; lone surrogates, which Lean's `Char` cannot
represent, are rejected as well — no claim exercises them). -/
def decodeStringSpan : List Char → Option (List Char)
  | [] => some []
  | '\\' :: 'u' :: h1 :: h2 :: h3 :: h4 :: rest =>
    (match hexVal h1, hexVal h2, hexVal h3, hexVal h4 with
     | some a, some b, some c, some d =>
       let code := ((a * 16 + b) * 16 + c) * 16 + d
       if 0xD800 ≤ code ∧ code ≤ 0xDBFF then
         match rest with
         | '\\' :: 'u' :: g1 :: g2 :: g3 :: g4 :: rest2 =>
           (match hexVal g1, hexVal g2, hexVal g3, hexVal g4 with
            | some a2, some b2, some c2, some d2 =>
              let code2 := ((a2 * 16 + b2) * 16 + c2) * 16 + d2
              if 0xDC00 ≤ code2 ∧ code2 ≤ 0xDFFF then
                match decodeStringSpan rest2 with
                | some s =>
                  some (Char.ofNat (0x10000 + (code - 0xD800) * 0x400 + (code2 - 0xDC00)) :: s)
                | none => none
              else none
            | _, _, _, _ => none)
         | _ => none
       else if 0xDC00 ≤ code ∧ code ≤ 0xDFFF then none
       else
         match decodeStringSpan rest with
         | some s => some (Char.ofNat code :: s)
         | none => none
     | _, _, _, _ => none)
  | '\\' :: e :: rest =>
    (match (if e = '"' then some '"' else if e = '\\' then some '\\'
        else if e = '/' then some '/' else if e = 'b' then some (Char.ofNat 8)
        else if e = 'f' then some (Char.ofNat 12) else if e = 'n' then some '\n'
        else if e = 'r' then some '\r' else if e = 't' then some '\t'
        else none) with
     | some ch =>
       match decodeStringSpan rest with
       | some s => some (ch :: s)
       | none => none
     | none => none)
  | c :: rest =>
    if c.toNat < 0x20 then none
    else
      match decodeStringSpan rest with
      | some s => some (c :: s)
      | none => none

/-- Parse a JSON string (input starts after the opening quote). -/
def parseJString (cs : List Char) : Option (List Char × List Char) :=
  match rawStringSpan cs with
  | some (span, rest) =>
    match decodeStringSpan span with
    | some s => some (s, rest)
    | none => none
  | none => none

/-- The optional sign of a JSON number exponent. -/
def numExpSign (t : List Char) : List Char × List Char :=
  match t with
  | s :: u => if s = '+' ∨ s = '-' then (([s] : List Char), u) else (([] : List Char), t)
  | [] => (([] : List Char), t)

/-- The optional exponent part of a JSON number (regex `([eE][-+]?[0-9]+)?`):
like the regex group, it backtracks to the empty match when no digits follow. -/
def numExpPart (acc : List Char) (cs : List Char) : List Char × List Char :=
  match cs with
  | e :: t =>
    if e = 'e' ∨ e = 'E' then
      if (numExpSign t).2.takeWhile Char.isDigit = [] then (acc, cs)
      else (acc ++ e :: (numExpSign t).1 ++ (numExpSign t).2.takeWhile Char.isDigit,
            (numExpSign t).2.dropWhile Char.isDigit)
    else (acc, cs)
  | [] => (acc, [])

/-- The optional fraction part (regex `(\.[0-9]+)?`) followed by the exponent
part; backtracks to the empty match when no digits follow the dot. -/
def numFracPart (acc : List Char) (cs : List Char) : List Char × List Char :=
  match cs with
  | c :: t =>
    if c = '.' then
      (if t.takeWhile Char.isDigit = [] then numExpPart acc cs
       else numExpPart (acc ++ '.' :: t.takeWhile Char.isDigit) (t.dropWhile Char.isDigit))
    else numExpPart acc cs
  | [] => numExpPart acc cs

/-- The optional leading minus of a JSON number. -/
def numSign (cs : List Char) : List Char × List Char :=
  match cs with
  | c :: t => if c = '-' then ((['-'] : List Char), t) else (([] : List Char), cs)
  | [] => (([] : List Char), cs)

/-- Lex a JSON number: regex `-?(0|[1-9][0-9]*)(\.[0-9]+)?([eE][-+]?[0-9]+)?`
(CPython `json.scanner.NUMBER_RE`), longest match, returning the lexeme and
the rest. -/
def parseNumberLex (cs : List Char) : Option (List Char × List Char) :=
  match (numSign cs).2 with
  | c :: t =>
    if c = '0' then some (numFracPart ((numSign cs).1 ++ ['0']) t)
    else if c.isDigit then
      some (numFracPart ((numSign cs).1 ++ c :: t.takeWhile Char.isDigit)
        (t.dropWhile Char.isDigit))
    else none
  | [] => none

/-- CPython's insertion of a parsed object member: `dict` semantics, i.e. a
duplicate key keeps its first position but takes the last value. -/
def insertKV (kvs : List (List Char × Json)) (k : List Char) (v : Json) :
    List (List Char × Json) :=
  match kvs with
  | [] => [(k, v)]
  | (k', v') :: t => if k' = k then (k, v) :: t else (k', v') :: insertKV t k v

mutual

/-- Parse one JSON value at the head of the input (no leading whitespace).
The fuel only bounds the recursion depth; `json_loads` supplies enough. -/
def parseVal : Nat → List Char → Option (Json × List Char)
  | 0, _ => none
  | Nat.succ f, cs =>
    match cs with
    | [] => none
    | c :: rest =>
      if c = '"' then
        (match parseJString rest with
         | some (s, r) => some (Json.str s, r)
         | none => none)
      else if c = '{' then
        (match rest.dropWhile isJsonWs with
         | c2 :: r2 =>
           if c2 = '}' then some (Json.obj [], r2)
           else parseMembers f (c2 :: r2) []
         | [] => parseMembers f [] [])
      else if c = '[' then
        (match rest.dropWhile isJsonWs with
         | c2 :: r2 =>
           if c2 = ']' then some (Json.arr [], r2)
           else parseItems f (c2 :: r2) []
         | [] => parseItems f [] [])
      else if c = 't' then
        (if "true".data.isPrefixOf cs then some (Json.bool true, cs.drop 4) else none)
      else if c = 'f' then
        (if "false".data.isPrefixOf cs then some (Json.bool false, cs.drop 5) else none)
      else if c = 'n' then
        (if "null".data.isPrefixOf cs then some (Json.null, cs.drop 4) else none)
      else if c = 'N' then
        (if "NaN".data.isPrefixOf cs then some (Json.num "NaN".data, cs.drop 3) else none)
      else if c = 'I' then
        (if "Infinity".data.isPrefixOf cs then some (Json.num "Infinity".data, cs.drop 8)
         else none)
      else if c = '-' && "Infinity".data.isPrefixOf rest then
        some (Json.num "-Infinity".data, cs.drop 9)
      else if c = '-' || c.isDigit then
        (match parseNumberLex cs with
         | some (lex, r) => some (Json.num lex, r)
         | none => none)
      else none

/-- Parse the members of a JSON object, after the opening brace and leading
whitespace, the accumulator holding the members already read. -/
def parseMembers : Nat → List Char → List (List Char × Json) →
    Option (Json × List Char)
  | 0, _, _ => none
  | Nat.succ f, cs, acc =>
    match cs with
    | c :: rest =>
      if c = '"' then
        (match parseJString rest with
         | some (k, r1) =>
           (match r1.dropWhile isJsonWs with
            | c2 :: r3 =>
              if c2 = ':' then
                (match parseVal f (r3.dropWhile isJsonWs) with
                 | some (v, r4) =>
                   (match r4.dropWhile isJsonWs with
                    | c3 :: r6 =>
                      if c3 = ',' then parseMembers f (r6.dropWhile isJsonWs) (insertKV acc k v)
                      else if c3 = '}' then some (Json.obj (insertKV acc k v), r6)
                      else none
                    | [] => none)
                 | none => none)
              else none
            | [] => none)
         | none => none)
      else none
    | [] => none

/-- Parse the items of a JSON array, after the opening bracket and leading
whitespace. -/
def parseItems : Nat → List Char → List Json → Option (Json × List Char)
  | 0, _, _ => none
  | Nat.succ f, cs, acc =>
    match parseVal f cs with
    | some (v, r1) =>
      (match r1.dropWhile isJsonWs with
       | c2 :: r3 =>
         if c2 = ',' then parseItems f (r3.dropWhile isJsonWs) (acc ++ [v])
         else if c2 = ']' then some (Json.arr (acc ++ [v]), r3)
         else none
       | [] => none)
    | none => none

end

/-- Model of `json.loads`: skip surrounding whitespace, parse exactly one
value, reject trailing garbage. -/
def json_loads (s : List Char) : Option Json :=
  match parseVal (2 * (stripJson s).length + 2) (stripJson s) with
  | some (v, []) => some v
  | _ => none

/-! ## `AIPolymarketParser.fix_json_string` (src/ai_parser.py lines 405-424) -/

/-- Model of `re.sub(r',(\s*[}\]])', r'\1', json_str)`: scan left to right;
at each comma followed by optional whitespace and a closing brace/bracket,
drop the comma, keep the whitespace and the closer, and continue scanning
after the match (re.sub never rescans the replacement).  The fuel only bounds
the recursion (each step consumes at least one character, so fuel = length
suffices and the zero-fuel case is never reached on `removeTrailingCommas`). -/
def removeTCFuel : Nat → List Char → List Char
  | 0, l => l
  | Nat.succ _, [] => []
  | Nat.succ f, c :: rest =>
    if c = ',' then
      (match rest.dropWhile isPyWs with
       | c2 :: r3 =>
         if c2 = '}' ∨ c2 = ']' then
           rest.takeWhile isPyWs ++ c2 :: removeTCFuel f r3
         else ',' :: removeTCFuel f rest
       | [] => ',' :: removeTCFuel f rest)
    else c :: removeTCFuel f rest

/-- The full substitution `re.sub(r',(\s*[}\]])', r'\1', json_str)`. -/
def removeTrailingCommas (s : List Char) : List Char := removeTCFuel s.length s

/-- `AIPolymarketParser.fix_json_string`: remove trailing commas, return the
fixed string only if it then parses, else `None`. -/
def fix_json_string (json_str : List Char) : Option (List Char) :=
  match json_loads (removeTrailingCommas json_str) with
  | some _ => some (removeTrailingCommas json_str)
  | none => none

/-! ## `AIPolymarketParser.extract_json_from_response` (src/ai_parser.py
lines 320-403) -/

/-- The `try: return json.loads(js) except: fixed = fix_json_string(js);
if fixed: return json.loads(fixed)` pattern shared by the fence branches and
the brace-regex branch; `none` means the branch falls through. -/
def tryParseWithFix (js : List Char) : Option Json :=
  match json_loads js with
  | some v => some v
  | none =>
    match fix_json_string js with
    | some f => if f = [] then none else json_loads f
    | none => none

/-- Index of the last occurrence of `c` in `s`. -/
def lastIdxOf (c : Char) (s : List Char) : Option Nat :=
  match findSub [c] s.reverse with
  | some j => some (s.length - 1 - j)
  | none => none

/-- The unique match of the greedy regex `r'\{.*\}'` with `re.DOTALL`
(lines 379-380): from the first `'{'` to the last `'}'`, when the former
precedes the latter; the greedy `.*` makes a second disjoint match
impossible. -/
def braceMatch (s : List Char) : Option (List Char) :=
  match findSub ['{'] s, lastIdxOf '}' s with
  | some i, some j => if i < j then some ((s.take (j + 1)).drop i) else none
  | some _, none => none
  | none, _ => none

/-- `AIPolymarketParser.extract_json_from_response`: try the ```json fence,
then the generic ``` fence, then the whole stripped response, then the
brace-delimited regex match; each branch attempts a parse and then the
trailing-comma repair. -/
def extract_json_from_response (response_text : List Char) : Option Json :=
  match
    (match findSub "```json".data response_text with
     | some i =>
       (match findSub "```".data (response_text.drop (i + 7)) with
        | some e =>
          tryParseWithFix (stripPy ((response_text.take (i + 7 + e)).drop (i + 7)))
        | none => none)
     | none => none)
  with
  | some v => some v
  | none =>
    match
      (match findSub "```".data response_text with
       | some i =>
         (match findSub "```".data (response_text.drop (i + 3)) with
          | some e =>
            tryParseWithFix (stripPy ((response_text.take (i + 3 + e)).drop (i + 3)))
          | none => none)
       | none => none)
    with
    | some v => some v
    | none =>
      match json_loads (stripPy response_text) with
      | some v => some v
      | none =>
        match braceMatch response_text with
        | some m => tryParseWithFix m
        | none => none

/-! ## Claim C6: `fix_json_string` -/

/-- Whether the input contains an occurrence of the pattern
`,(\s*[}\]])` — a comma separated only by whitespace from a closing brace or
bracket. -/
def hasTrailingCommaPattern : List Char → Bool
  | [] => false
  | c :: rest =>
    if c = ',' then
      (match rest.dropWhile isPyWs with
       | c2 :: _ => if c2 = '}' ∨ c2 = ']' then true else hasTrailingCommaPattern rest
       | [] => hasTrailingCommaPattern rest)
    else hasTrailingCommaPattern rest

theorem removeTCFuel_id (f : Nat) : ∀ s, hasTrailingCommaPattern s = false →
    removeTCFuel f s = s := by
  induction f with
  | zero => intro s _; rfl
  | succ f ih =>
    intro s h
    match s with
    | [] => rfl
    | c :: rest =>
      by_cases hcm : c = ','
      · subst hcm
        rw [hasTrailingCommaPattern, if_pos rfl] at h
        rw [removeTCFuel, if_pos rfl]
        cases hdw : rest.dropWhile isPyWs with
        | nil =>
          rw [hdw] at h
          simp only [] at h ⊢
          rw [ih rest h]
        | cons c2 r3 =>
          rw [hdw] at h
          simp only [] at h ⊢
          by_cases hcl : c2 = '}' ∨ c2 = ']'
          · rw [if_pos hcl] at h
            exact Bool.noConfusion h
          · rw [if_neg hcl] at h
            rw [if_neg hcl, ih rest h]
      · rw [hasTrailingCommaPattern, if_neg hcm] at h
        rw [removeTCFuel, if_neg hcm, ih rest h]

theorem removeTrailingCommas_id (s : List Char) (h : hasTrailingCommaPattern s = false) :
    removeTrailingCommas s = s := removeTCFuel_id s.length s h

/-- C6: `fix_json_string` performs exactly the trailing-comma removal — a
string without the `,(\s*[}\]])` defect passes through unchanged — and returns
the fixed string only when it parses as JSON, otherwise `None`; in particular
the input `{"a": 1, "b": [1,2,],}` is repaired to a string that parses to a
value deep-equal to parsing `{"a": 1, "b": [1, 2]}`. -/
theorem c6_fix_json_string_behaviour :
    (∀ s f, fix_json_string s = some f →
      f = removeTrailingCommas s ∧ (json_loads f).isSome = true) ∧
    (∀ s, json_loads (removeTrailingCommas s) = none → fix_json_string s = none) ∧
    (∀ s, hasTrailingCommaPattern s = false → removeTrailingCommas s = s) ∧
    (∃ f, fix_json_string "\x7b\"a\": 1, \"b\": [1,2,],\x7d".data = some f ∧
      json_loads f = json_loads "\x7b\"a\": 1, \"b\": [1, 2]\x7d".data ∧
      (json_loads f).isSome = true) := by
  refine ⟨?p1, ?p2, ?p3, ?p4⟩
  · intro s f h
    unfold fix_json_string at h
    split at h
    · cases h
      constructor
      · rfl
      · rename_i v hv
        rw [hv]
        rfl
    · cases h
  · intro s h
    unfold fix_json_string
    rw [h]
  · exact removeTrailingCommas_id
  · exact ⟨removeTrailingCommas "\x7b\"a\": 1, \"b\": [1,2,],\x7d".data, rfl, rfl, rfl⟩

/-- Witness for `c6_fix_json_string_behaviour`: its second conjunct applied at
the concrete non-JSON input `"x"` (whose comma-fix does not parse), and its
third at an input without the trailing-comma defect. -/
theorem c6_fix_json_string_behaviour_witness :
    fix_json_string "x".data = none ∧
    removeTrailingCommas "[1, 2]".data = "[1, 2]".data := by
  constructor
  · exact c6_fix_json_string_behaviour.2.1 "x".data (by rfl)
  · exact c6_fix_json_string_behaviour.2.2.1 "[1, 2]".data (by rfl)

/-! ## `AIPolymarketParser.combine_market_results` (src/ai_parser.py
lines 202-218) -/

/-- Python truthiness (`if result`) for the JSON values in play: `None`,
`False`, numeric zero, and empty strings/lists/dicts are falsy. -/
def pyTruthy : Json → Bool
  | Json.null => false
  | Json.bool b => b
  | Json.num lex =>
    (lex.takeWhile (fun c => !(c = 'e' || c = 'E'))).any
        (fun c => '1' ≤ c && c ≤ '9')
      || lex = "NaN".data || lex = "Infinity".data || lex = "-Infinity".data
  | Json.str s => !s.isEmpty
  | Json.arr xs => !xs.isEmpty
  | Json.obj kvs => !kvs.isEmpty

/-- Python's `'markets' in result`: key membership for dicts, element equality
for lists, substring test for strings; `none` models the `TypeError` raised
for the remaining types. -/
def pyInOp (key : List Char) : Json → Option Bool
  | Json.obj kvs => some (kvs.any (fun kv => kv.1 = key))
  | Json.arr xs =>
    some (xs.any (fun x => match x with | Json.str s => s = key | _ => false))
  | Json.str s => some (hasSub key s)
  | _ => none

/-- First-match association-list lookup (CPython dicts produced by the JSON
parser have unique keys, so this is dict lookup). -/
def lookupKV (kvs : List (List Char × Json)) (k : List Char) : Option Json :=
  match kvs with
  | [] => none
  | (k', v) :: t => if k' = k then some v else lookupKV t k

/-- Python's `list.extend(x)`: the elements `x` contributes when iterated —
a list yields its elements, a string its characters, a dict its keys; `none`
models the `TypeError` for non-iterables. -/
def pyIterList : Json → Option (List Json)
  | Json.arr xs => some xs
  | Json.str s => some (s.map (fun c => Json.str [c]))
  | Json.obj kvs => some (kvs.map (fun kv => Json.str kv.1))
  | _ => none

/-- One iteration of the `combine_market_results` loop
(`if result and 'markets' in result: combined_markets.extend(result['markets'])`):
the items the result contributes (`some []` when it is skipped), with `none`
modelling an uncaught `TypeError`. -/
def combineStep (r : Json) : Option (List Json) :=
  if pyTruthy r then
    match pyInOp "markets".data r with
    | none => none
    | some false => some []
    | some true =>
      (match r with
       | Json.obj kvs =>
         (match lookupKV kvs "markets".data with
          | some v => pyIterList v
          | none => none)
       | _ => none)
  else some []

/-- The `for result in results` loop of `combine_market_results`. -/
def combineGo : List Json → List Json → Option Json
  | [], acc => some (Json.obj [("markets".data, Json.arr acc)])
  | r :: rs, acc =>
    match combineStep r with
    | some items => combineGo rs (acc ++ items)
    | none => none

/-- `AIPolymarketParser.combine_market_results`. -/
def combine_market_results (results : List Json) : Option Json :=
  combineGo results []

/-- The `markets` array a per-chunk result contributes to the merge (empty for
anything but a dict with a list under `'markets'`). -/
def marketsArrayOf (r : Json) : List Json :=
  match r with
  | Json.obj kvs =>
    (match lookupKV kvs "markets".data with
     | some (Json.arr a) => a
     | _ => [])
  | _ => []

theorem lookupKV_none_any (kvs : List (List Char × Json)) (k : List Char)
    (h : lookupKV kvs k = none) : kvs.any (fun kv => kv.1 = k) = false := by
  induction kvs with
  | nil => rfl
  | cons kv t ih =>
    rw [lookupKV] at h
    by_cases hk : kv.1 = k
    · rw [if_pos hk] at h
      cases h
    · rw [if_neg hk] at h
      simp only [List.any_cons, ih h, Bool.or_false]
      simp [hk]

theorem lookupKV_some_any (kvs : List (List Char × Json)) (k : List Char) (v : Json)
    (h : lookupKV kvs k = some v) : kvs.any (fun kv => kv.1 = k) = true := by
  induction kvs with
  | nil => cases h
  | cons kv t ih =>
    rw [lookupKV] at h
    by_cases hk : kv.1 = k
    · simp [List.any_cons, hk]
    · rw [if_neg hk] at h
      simp [List.any_cons, ih h]

theorem marketsArrayOf_of_falsy (r : Json) (h : pyTruthy r = false) :
    marketsArrayOf r = [] := by
  cases r with
  | obj kvs =>
    cases kvs with
    | nil => rfl
    | cons kv t =>
      rw [pyTruthy] at h
      simp at h
  | null => rfl
  | bool b => rfl
  | num l => rfl
  | str s => rfl
  | arr xs => rfl

theorem combineStep_of_falsy (r : Json) (h : pyTruthy r = false) :
    combineStep r = some [] := by
  unfold combineStep
  rw [h]
  rfl

theorem combineStep_obj_lookup_none (kvs : List (List Char × Json))
    (h : lookupKV kvs "markets".data = none) :
    combineStep (Json.obj kvs) = some [] := by
  by_cases htr : pyTruthy (Json.obj kvs) = true
  · rw [combineStep, if_pos htr, pyInOp, lookupKV_none_any _ _ h]
  · rw [combineStep, if_neg htr]

theorem combineStep_obj_lookup_arr (kvs : List (List Char × Json)) (a : List Json)
    (h : lookupKV kvs "markets".data = some (Json.arr a)) :
    combineStep (Json.obj kvs) = some a := by
  have hne : kvs ≠ [] := by
    intro hnil
    rw [hnil] at h
    cases h
  have htr : pyTruthy (Json.obj kvs) = true := by
    rw [pyTruthy]
    simp [hne]
  rw [combineStep, if_pos htr, pyInOp, lookupKV_some_any _ _ _ h]
  simp only []
  rw [h]
  rfl

theorem combineStep_eq_marketsArrayOf (r : Json)
    (hr : pyTruthy r = false ∨
      (∃ kvs, r = Json.obj kvs ∧
        (lookupKV kvs "markets".data = none ∨
          ∃ a, lookupKV kvs "markets".data = some (Json.arr a)))) :
    combineStep r = some (marketsArrayOf r) := by
  rcases hr with hfalsy | ⟨kvs, rfl, hlk⟩
  · rw [combineStep_of_falsy r hfalsy, marketsArrayOf_of_falsy r hfalsy]
  · rcases hlk with hnone | ⟨a, hsome⟩
    · rw [combineStep_obj_lookup_none kvs hnone]
      rw [marketsArrayOf, hnone]
    · rw [combineStep_obj_lookup_arr kvs a hsome]
      rw [marketsArrayOf, hsome]

/-- Specification of the combine loop under the per-element well-formedness
hypothesis of claim C10. -/
theorem combineGo_spec (rs : List Json) :
    ∀ acc,
    (∀ r ∈ rs, pyTruthy r = false ∨
      (∃ kvs, r = Json.obj kvs ∧
        (lookupKV kvs "markets".data = none ∨
          ∃ a, lookupKV kvs "markets".data = some (Json.arr a)))) →
    combineGo rs acc
      = some (Json.obj [("markets".data,
          Json.arr (acc ++ (rs.map marketsArrayOf).flatten))]) := by
  induction rs with
  | nil => intro acc _; simp [combineGo]
  | cons r rs ih =>
    intro acc h
    rw [combineGo, combineStep_eq_marketsArrayOf r (h r (by simp))]
    simp only []
    rw [ih (acc ++ marketsArrayOf r) (fun r2 hr2 => h r2 (List.mem_cons_of_mem _ hr2))]
    simp [List.append_assoc]

/-- C7: when every per-chunk result is an object with a `markets` array,
`combine_market_results` returns an object whose `markets` array is the
concatenation of the per-chunk arrays in chunk order — no deduplication, no
reordering. -/
theorem c7_combine_concat (rs : List Json)
    (h : ∀ r ∈ rs, ∃ kvs a, r = Json.obj kvs ∧
        lookupKV kvs "markets".data = some (Json.arr a)) :
    combine_market_results rs
      = some (Json.obj [("markets".data,
          Json.arr ((rs.map marketsArrayOf).flatten))]) := by
  have h2 : ∀ r ∈ rs, pyTruthy r = false ∨
      (∃ kvs, r = Json.obj kvs ∧
        (lookupKV kvs "markets".data = none ∨
          ∃ a, lookupKV kvs "markets".data = some (Json.arr a))) := by
    intro r hr
    obtain ⟨kvs, a, rfl, hl⟩ := h r hr
    exact Or.inr ⟨kvs, rfl, Or.inr ⟨a, hl⟩⟩
  simpa [combine_market_results] using combineGo_spec rs [] h2

/-- Witness for `c7_combine_concat`: chunks yielding `[A]`, `[B, C]`, `[D]`
merge to exactly `[A, B, C, D]` in that order. -/
theorem c7_combine_concat_witness :
    combine_market_results
      [Json.obj [("markets".data, Json.arr [Json.str "A".data])],
       Json.obj [("markets".data, Json.arr [Json.str "B".data, Json.str "C".data])],
       Json.obj [("markets".data, Json.arr [Json.str "D".data])]]
      = some (Json.obj [("markets".data,
          Json.arr [Json.str "A".data, Json.str "B".data, Json.str "C".data,
            Json.str "D".data])]) := by
  have h := c7_combine_concat
    [Json.obj [("markets".data, Json.arr [Json.str "A".data])],
     Json.obj [("markets".data, Json.arr [Json.str "B".data, Json.str "C".data])],
     Json.obj [("markets".data, Json.arr [Json.str "D".data])]]
    (by
      intro r hr
      rcases List.mem_cons.mp hr with hr1 | hr
      · exact ⟨_, _, hr1, rfl⟩
      rcases List.mem_cons.mp hr with hr2 | hr
      · exact ⟨_, _, hr2, rfl⟩
      rcases List.mem_cons.mp hr with hr3 | hr
      · exact ⟨_, _, hr3, rfl⟩
      · cases hr)
  exact h

/-- C10: for per-chunk results that are falsy or objects (with any `markets`
value being an array), `combine_market_results` returns an object with exactly
the single key `markets`, and falsy results or objects lacking the `markets`
key contribute nothing and are skipped silently rather than erroring. -/
theorem c10_combine_single_key_skips (rs : List Json)
    (h : ∀ r ∈ rs, pyTruthy r = false ∨
      (∃ kvs, r = Json.obj kvs ∧
        (lookupKV kvs "markets".data = none ∨
          ∃ a, lookupKV kvs "markets".data = some (Json.arr a)))) :
    combine_market_results rs
      = some (Json.obj [("markets".data,
          Json.arr ((rs.map marketsArrayOf).flatten))]) ∧
    (∀ r, pyTruthy r = false → marketsArrayOf r = []) ∧
    (∀ kvs, lookupKV kvs "markets".data = none →
      marketsArrayOf (Json.obj kvs) = []) := by
  refine ⟨?h1, marketsArrayOf_of_falsy, ?h3⟩
  · simpa [combine_market_results] using combineGo_spec rs [] h
  · intro kvs hn
    rw [marketsArrayOf, hn]

/-- Witness for `c10_combine_single_key_skips`: `None`, an empty dict, a
proper result and an empty list — the merged object holds only the proper
result's array. -/
theorem c10_combine_single_key_skips_witness :
    combine_market_results
      [Json.null, Json.obj [],
       Json.obj [("markets".data, Json.arr [Json.num ['1']])], Json.arr []]
      = some (Json.obj [("markets".data, Json.arr [Json.num ['1']])]) := by
  have h := (c10_combine_single_key_skips
    [Json.null, Json.obj [],
     Json.obj [("markets".data, Json.arr [Json.num ['1']])], Json.arr []]
    (by
      intro r hr
      rcases List.mem_cons.mp hr with hr1 | hr
      · exact Or.inl (by rw [hr1]; rfl)
      rcases List.mem_cons.mp hr with hr2 | hr
      · exact Or.inl (by rw [hr2]; rfl)
      rcases List.mem_cons.mp hr with hr3 | hr
      · exact Or.inr ⟨_, hr3, Or.inr ⟨_, rfl⟩⟩
      rcases List.mem_cons.mp hr with hr4 | hr
      · exact Or.inl (by rw [hr4]; rfl)
      · cases hr)).1
  exact h

/-! ## Support lemmas for the extractor claims -/

theorem pyWs_cases (c : Char) (h : isPyWs c = true) :
    c = ' ' ∨ c = '\t' ∨ c = '\n' ∨ c = '\r' ∨ c = Char.ofNat 11 ∨ c = Char.ofNat 12 ∨
    c = Char.ofNat 28 ∨ c = Char.ofNat 29 ∨ c = Char.ofNat 30 ∨ c = Char.ofNat 31 ∨
    c = Char.ofNat 133 ∨ c = Char.ofNat 160 := by
  revert h
  simp only [isPyWs, Bool.or_eq_true, decide_eq_true_eq]
  tauto

theorem isDigit_not_pyWs (c : Char) (h : c.isDigit = true) : isPyWs c = false := by
  by_contra hws
  rw [Bool.not_eq_false] at hws
  rcases pyWs_cases c hws with hc|hc|hc|hc|hc|hc|hc|hc|hc|hc|hc|hc <;>
    subst hc <;> exact absurd h (by decide)

/-! ### `findSub` -/

theorem findSub_none_no_prefix (pat : List Char) :
    ∀ hay : List Char, findSub pat hay = none →
      ∀ k, pat.isPrefixOf (hay.drop k) = false := by
  intro hay
  induction hay with
  | nil =>
    intro h k
    rw [findSub] at h
    by_cases hp : pat.isPrefixOf ([] : List Char) = true
    · rw [if_pos hp] at h
      cases h
    · rw [List.drop_nil]
      exact Bool.not_eq_true _ |>.mp hp
  | cons c t ih =>
    intro h k
    rw [findSub] at h
    by_cases hp : pat.isPrefixOf (c :: t) = true
    · rw [if_pos hp] at h
      cases h
    · rw [if_neg hp] at h
      have ht : findSub pat t = none := by
        cases hft : findSub pat t with
        | none => rfl
        | some j => rw [hft] at h; cases h
      cases k with
      | zero => exact Bool.not_eq_true _ |>.mp hp
      | succ k2 => exact ih ht k2

theorem findSub_some_prefix (pat : List Char) :
    ∀ (hay : List Char) (i : Nat), findSub pat hay = some i →
      pat.isPrefixOf (hay.drop i) = true := by
  intro hay
  induction hay with
  | nil =>
    intro i h
    rw [findSub] at h
    by_cases hp : pat.isPrefixOf ([] : List Char) = true
    · rw [if_pos hp] at h
      cases h
      simpa using hp
    · rw [if_neg hp] at h
      cases h
  | cons c t ih =>
    intro i h
    rw [findSub] at h
    by_cases hp : pat.isPrefixOf (c :: t) = true
    · rw [if_pos hp] at h
      cases h
      simpa using hp
    · rw [if_neg hp] at h
      cases hft : findSub pat t with
      | none => rw [hft] at h; cases h
      | some j =>
        rw [hft] at h
        cases h
        exact ih j hft

theorem findSub_some_min (pat : List Char) :
    ∀ (hay : List Char) (i : Nat), findSub pat hay = some i →
      ∀ k, k < i → pat.isPrefixOf (hay.drop k) = false := by
  intro hay
  induction hay with
  | nil =>
    intro i h k hk
    rw [findSub] at h
    by_cases hp : pat.isPrefixOf ([] : List Char) = true
    · rw [if_pos hp] at h
      cases h
      omega
    · rw [if_neg hp] at h
      cases h
  | cons c t ih =>
    intro i h k hk
    rw [findSub] at h
    by_cases hp : pat.isPrefixOf (c :: t) = true
    · rw [if_pos hp] at h
      cases h
      omega
    · rw [if_neg hp] at h
      cases hft : findSub pat t with
      | none => rw [hft] at h; cases h
      | some j =>
        rw [hft] at h
        have hij : i = j + 1 := by
          injection h with h2
          exact h2.symm
        subst hij
        cases k with
        | zero => exact Bool.not_eq_true _ |>.mp hp
        | succ k2 => exact ih j hft k2 (by omega)

theorem findSub_eq_some_of (pat : List Char) :
    ∀ (hay : List Char) (i : Nat),
      pat.isPrefixOf (hay.drop i) = true →
      (∀ k, k < i → pat.isPrefixOf (hay.drop k) = false) →
      findSub pat hay = some i := by
  intro hay
  induction hay with
  | nil =>
    intro i hp hmin
    cases i with
    | zero =>
      rw [findSub, if_pos (by simpa using hp)]
    | succ i2 =>
      have := hmin 0 (by omega)
      rw [List.drop_nil] at hp this
      rw [this] at hp
      cases hp
  | cons c t ih =>
    intro i hp hmin
    cases i with
    | zero =>
      rw [findSub, if_pos (by simpa using hp)]
    | succ i2 =>
      have h0 := hmin 0 (by omega)
      rw [List.drop_zero] at h0
      rw [findSub, if_neg (by rw [h0]; exact Bool.false_ne_true)]
      rw [ih i2 (by simpa using hp) (fun k hk => by simpa using hmin (k + 1) (by omega))]
      rfl

/-! ### Stripping -/

theorem dropWhile_append_all (p : Char → Bool) (l x : List Char)
    (h : ∀ c ∈ l, p c = true) : (l ++ x).dropWhile p = x.dropWhile p := by
  induction l with
  | nil => rfl
  | cons c t ih =>
    rw [List.cons_append, List.dropWhile_cons, if_pos (h c (by simp))]
    exact ih (fun c2 hc2 => h c2 (by simp [hc2]))

theorem dropWhile_cons_neg (p : Char → Bool) (c : Char) (t : List Char)
    (h : p c = false) : (c :: t).dropWhile p = c :: t := by
  rw [List.dropWhile_cons, if_neg (by rw [h]; exact Bool.false_ne_true)]

theorem dropEndWhile_append_all (p : Char → Bool) (x l : List Char)
    (h : ∀ c ∈ l, p c = true) : dropEndWhile p (x ++ l) = dropEndWhile p x := by
  unfold dropEndWhile
  rw [List.reverse_append, dropWhile_append_all p l.reverse x.reverse
    (fun c hc => h c (by simpa using hc))]

theorem dropEndWhile_last_neg (p : Char → Bool) (x : List Char) (c : Char)
    (h : p c = false) : dropEndWhile p (x ++ [c]) = x ++ [c] := by
  unfold dropEndWhile
  rw [List.reverse_append]
  simp only [List.reverse_cons, List.reverse_nil, List.nil_append, List.singleton_append]
  rw [dropWhile_cons_neg p c x.reverse h]
  simp

theorem dropEndWhile_decomp (p : Char → Bool) (l : List Char) :
    ∃ r, l = dropEndWhile p l ++ r ∧ ∀ c ∈ r, p c = true := by
  refine ⟨(l.reverse.takeWhile p).reverse, ?_, ?_⟩
  · unfold dropEndWhile
    conv_lhs => rw [← List.reverse_reverse l]
    conv_lhs => rw [← List.takeWhile_append_dropWhile (p := p) (l := l.reverse)]
    rw [List.reverse_append]
  · intro c hc
    rw [List.mem_reverse] at hc
    exact List.mem_takeWhile_imp hc

theorem takeWhile_all (p : Char → Bool) (l : List Char) :
    ∀ c ∈ l.takeWhile p, p c = true := fun _ hc => List.mem_takeWhile_imp hc

/-! ### Consumption shape of the JSON parser -/

theorem rawStringSpan_decomp_aux :
    ∀ (n : Nat) (cs : List Char), cs.length ≤ n → ∀ span rest,
      rawStringSpan cs = some (span, rest) → cs = span ++ '"' :: rest := by
  intro n
  induction n with
  | zero =>
    intro cs hlen span rest h
    cases cs with
    | nil => rw [rawStringSpan] at h; cases h
    | cons c t => simp at hlen
  | succ n ih =>
    intro cs hlen span rest h
    cases cs with
    | nil => rw [rawStringSpan] at h; cases h
    | cons c rest0 =>
      rw [rawStringSpan.eq_def] at h
      simp only [] at h
      by_cases hq : c = '"'
      · rw [if_pos hq] at h
        cases h
        rw [hq]
        rfl
      · rw [if_neg hq] at h
        by_cases hb : c = '\\'
        · rw [if_pos hb] at h
          cases rest0 with
          | nil =>
            simp only [] at h
            exact Option.noConfusion h
          | cons e rest2 =>
            simp only [] at h
            cases hrs : rawStringSpan rest2 with
            | none => rw [hrs] at h; cases h
            | some pr =>
              rw [hrs] at h
              cases pr with
              | mk span2 r2 =>
                have hdec := ih rest2 (by simp at hlen; omega) span2 r2 hrs
                cases h
                rw [hb, hdec]
                rfl
        · rw [if_neg hb] at h
          cases hrs : rawStringSpan rest0 with
          | none => rw [hrs] at h; cases h
          | some pr =>
            rw [hrs] at h
            cases pr with
            | mk span2 r2 =>
              have hdec := ih rest0 (by simp at hlen; omega) span2 r2 hrs
              cases h
              rw [hdec]
              rfl

theorem rawStringSpan_decomp (cs span rest : List Char)
    (h : rawStringSpan cs = some (span, rest)) : cs = span ++ '"' :: rest :=
  rawStringSpan_decomp_aux cs.length cs (le_refl _) span rest h

theorem parseJString_decomp (cs s rest : List Char)
    (h : parseJString cs = some (s, rest)) : ∃ pre, cs = pre ++ '"' :: rest := by
  unfold parseJString at h
  cases hrs : rawStringSpan cs with
  | none => rw [hrs] at h; cases h
  | some pr =>
    rw [hrs] at h
    cases pr with
    | mk span r =>
      simp only [] at h
      cases hd : decodeStringSpan span with
      | none => rw [hd] at h; cases h
      | some s2 =>
        rw [hd] at h
        cases h
        exact ⟨span, rawStringSpan_decomp cs span rest hrs⟩

theorem numExpSign_decomp (t : List Char) :
    t = (numExpSign t).1 ++ (numExpSign t).2 ∧
      ∀ c ∈ (numExpSign t).1, isPyWs c = false := by
  cases t with
  | nil => exact ⟨rfl, by intro c hc; cases hc⟩
  | cons s u =>
    rw [numExpSign]
    by_cases hs : s = '+' ∨ s = '-'
    · rw [if_pos hs]
      refine ⟨rfl, ?_⟩
      intro c hc
      simp only [List.mem_singleton] at hc
      subst hc
      rcases hs with hs | hs <;> subst hs <;> decide
    · rw [if_neg hs]
      exact ⟨rfl, by intro c hc; cases hc⟩

theorem numExpPart_decomp (acc cs : List Char) :
    ∃ mid, (numExpPart acc cs).1 = acc ++ mid ∧ cs = mid ++ (numExpPart acc cs).2 ∧
      ∀ ch ∈ mid, isPyWs ch = false := by
  cases cs with
  | nil => exact ⟨[], by simp [numExpPart]⟩
  | cons e t =>
    rw [numExpPart]
    by_cases he : e = 'e' ∨ e = 'E'
    · rw [if_pos he]
      by_cases hes : (numExpSign t).2.takeWhile Char.isDigit = []
      · rw [if_pos hes]
        exact ⟨[], by simp⟩
      · rw [if_neg hes]
        refine ⟨e :: (numExpSign t).1 ++ (numExpSign t).2.takeWhile Char.isDigit,
          by simp, ?_, ?_⟩
        · obtain ⟨hsg, _⟩ := numExpSign_decomp t
          conv_lhs => rw [hsg]
          conv_lhs =>
            rw [← List.takeWhile_append_dropWhile Char.isDigit (numExpSign t).2]
          simp [List.append_assoc]
        · intro ch hch
          simp only [List.cons_append, List.mem_cons, List.mem_append] at hch
          rcases hch with hch | hch | hch
          · subst hch
            rcases he with he | he <;> subst he <;> decide
          · exact (numExpSign_decomp t).2 ch hch
          · exact isDigit_not_pyWs ch (List.mem_takeWhile_imp hch)
    · rw [if_neg he]
      exact ⟨[], by simp⟩

theorem numFracPart_decomp (acc cs : List Char) :
    ∃ mid, (numFracPart acc cs).1 = acc ++ mid ∧ cs = mid ++ (numFracPart acc cs).2 ∧
      ∀ ch ∈ mid, isPyWs ch = false := by
  cases cs with
  | nil =>
    rw [numFracPart]
    exact numExpPart_decomp acc []
  | cons c t =>
    rw [numFracPart]
    by_cases hc : c = '.'
    · rw [if_pos hc]
      by_cases hfs : t.takeWhile Char.isDigit = []
      · rw [if_pos hfs]
        exact numExpPart_decomp acc (c :: t)
      · rw [if_neg hfs]
        obtain ⟨mid2, h1, h2, h3⟩ :=
          numExpPart_decomp (acc ++ '.' :: t.takeWhile Char.isDigit)
            (t.dropWhile Char.isDigit)
        refine ⟨'.' :: t.takeWhile Char.isDigit ++ mid2, ?_, ?_, ?_⟩
        · rw [h1]
          simp [List.append_assoc]
        · subst hc
          conv_lhs => rw [← List.takeWhile_append_dropWhile Char.isDigit t]
          conv_lhs => rw [h2]
          simp [List.append_assoc]
        · intro ch hch
          simp only [List.cons_append, List.mem_cons, List.mem_append] at hch
          rcases hch with hch | hch | hch
          · subst hch
            decide
          · exact isDigit_not_pyWs ch (List.mem_takeWhile_imp hch)
          · exact h3 ch hch
    · rw [if_neg hc]
      exact numExpPart_decomp acc (c :: t)

theorem numSign_decomp (cs : List Char) :
    cs = (numSign cs).1 ++ (numSign cs).2 ∧
      ∀ c ∈ (numSign cs).1, isPyWs c = false := by
  cases cs with
  | nil => exact ⟨rfl, by intro c hc; cases hc⟩
  | cons c t =>
    rw [numSign]
    by_cases hc : c = '-'
    · rw [if_pos hc]
      subst hc
      exact ⟨rfl, by intro c hc; simp only [List.mem_singleton] at hc; subst hc; decide⟩
    · rw [if_neg hc]
      exact ⟨rfl, by intro c hc; cases hc⟩

theorem parseNumberLex_decomp (cs lex rest : List Char)
    (h : parseNumberLex cs = some (lex, rest)) :
    ∃ cons, cs = cons ++ rest ∧ cons ≠ [] ∧ ∀ ch ∈ cons, isPyWs ch = false := by
  rw [parseNumberLex] at h
  obtain ⟨hsg, hsgc⟩ := numSign_decomp cs
  cases hs2 : (numSign cs).2 with
  | nil => rw [hs2] at h; cases h
  | cons c t =>
    rw [hs2] at h
    simp only [] at h
    by_cases hc0 : c = '0'
    · rw [if_pos hc0] at h
      have hpair : numFracPart ((numSign cs).1 ++ ['0']) t = (lex, rest) :=
        Option.some.inj h
      obtain ⟨mid, h1, h2, h3⟩ := numFracPart_decomp ((numSign cs).1 ++ ['0']) t
      rw [hpair] at h1 h2
      refine ⟨(numSign cs).1 ++ '0' :: mid, ?_, by simp, ?_⟩
      · conv_lhs => rw [hsg, hs2, hc0, h2]
        simp [List.append_assoc]
      · intro ch hch
        simp only [List.mem_append, List.mem_cons] at hch
        rcases hch with hch | hch | hch
        · exact hsgc ch hch
        · subst hch
          decide
        · exact h3 ch hch
    · rw [if_neg hc0] at h
      by_cases hcd : c.isDigit = true
      · rw [if_pos hcd] at h
        have hpair : numFracPart ((numSign cs).1 ++ c :: t.takeWhile Char.isDigit)
            (t.dropWhile Char.isDigit) = (lex, rest) := Option.some.inj h
        obtain ⟨mid, h1, h2, h3⟩ :=
          numFracPart_decomp ((numSign cs).1 ++ c :: t.takeWhile Char.isDigit)
            (t.dropWhile Char.isDigit)
        rw [hpair] at h1 h2
        refine ⟨(numSign cs).1 ++ c :: t.takeWhile Char.isDigit ++ mid, ?_, by simp, ?_⟩
        · conv_lhs => rw [hsg, hs2]
          conv_lhs => rw [← List.takeWhile_append_dropWhile Char.isDigit t]
          conv_lhs => rw [h2]
          simp [List.append_assoc]
        · intro ch hch
          simp only [List.mem_append, List.mem_cons] at hch
          rcases hch with (hch | hch | hch) | hch
          · exact hsgc ch hch
          · rw [hch]
            exact isDigit_not_pyWs _ hcd
          · exact isDigit_not_pyWs ch (List.mem_takeWhile_imp hch)
          · exact h3 ch hch
      · rw [if_neg hcd] at h
        cases h

theorem last_split (cons rest cs : List Char) (hne : cons ≠ [])
    (hcs : cs = cons ++ rest) (hall : ∀ ch ∈ cons, isPyWs ch = false) :
    ∃ pre d, cs = pre ++ d :: rest ∧ isPyWs d = false := by
  refine ⟨cons.dropLast, cons.getLast hne, ?_, hall _ (List.getLast_mem hne)⟩
  rw [hcs]
  conv_lhs => rw [← List.dropLast_append_getLast hne]
  simp [List.append_assoc]

theorem prefix_drop_split (pat cs : List Char) (h : pat.isPrefixOf cs = true) :
    cs = pat ++ cs.drop pat.length := by
  obtain ⟨t, ht⟩ := List.isPrefixOf_iff_prefix.mp h
  rw [← ht]
  rw [List.drop_left]

theorem tw_dw (p : Char → Bool) (l : List Char) :
    l = l.takeWhile p ++ l.dropWhile p :=
  (List.takeWhile_append_dropWhile p l).symm

/-- Consumption shape of the three mutual parsers: a successful parse
consumes a nonempty chunk whose final character is not whitespace (the value
ends in a quote, digit, letter, or closing bracket/brace). -/
theorem parse_consume : ∀ f : Nat,
    (∀ cs v rest, parseVal f cs = some (v, rest) →
      ∃ pre d, cs = pre ++ d :: rest ∧ isPyWs d = false) ∧
    (∀ cs acc v rest, parseItems f cs acc = some (v, rest) →
      ∃ pre, cs = pre ++ ']' :: rest) ∧
    (∀ cs acc v rest, parseMembers f cs acc = some (v, rest) →
      ∃ pre, cs = pre ++ '}' :: rest) := by
  intro f
  induction f with
  | zero =>
    refine ⟨?_, ?_, ?_⟩
    · intro cs v rest h
      rw [parseVal] at h
      cases h
    · intro cs acc v rest h
      rw [parseItems] at h
      cases h
    · intro cs acc v rest h
      rw [parseMembers] at h
      cases h
  | succ f ih =>
    obtain ⟨ihV, ihI, ihM⟩ := ih
    refine ⟨?pv, ?pi, ?pm⟩
    · -- parseVal
      intro cs v rest h
      cases cs with
      | nil => rw [parseVal] at h; cases h
      | cons c rest0 =>
        rw [parseVal] at h
        by_cases h1 : c = '"'
        · rw [if_pos h1] at h
          cases hpj : parseJString rest0 with
          | none => rw [hpj] at h; cases h
          | some pr =>
            rw [hpj] at h
            cases pr with
            | mk s r =>
              simp only [] at h
              cases h
              obtain ⟨pre, hp⟩ := parseJString_decomp rest0 s rest hpj
              exact ⟨'"' :: pre, '"', by rw [h1, hp]; rfl, by decide⟩
        · rw [if_neg h1] at h
          by_cases h2 : c = '{'
          · rw [if_pos h2] at h
            cases hdw : rest0.dropWhile isJsonWs with
            | nil =>
              rw [hdw] at h
              simp only [] at h
              obtain ⟨pre, hm⟩ := ihM [] [] v rest h
              refine ⟨'{' :: rest0.takeWhile isJsonWs ++ pre, '}', ?_, by decide⟩
              conv_lhs => rw [h2, tw_dw isJsonWs rest0, hdw, hm]
              simp [List.append_assoc]
            | cons c2 r2 =>
              rw [hdw] at h
              simp only [] at h
              by_cases hc2 : c2 = '}'
              · rw [if_pos hc2] at h
                cases h
                refine ⟨'{' :: rest0.takeWhile isJsonWs, '}', ?_, by decide⟩
                conv_lhs => rw [h2, tw_dw isJsonWs rest0, hdw, hc2]
                simp
              · rw [if_neg hc2] at h
                obtain ⟨pre, hm⟩ := ihM (c2 :: r2) [] v rest h
                refine ⟨'{' :: rest0.takeWhile isJsonWs ++ pre, '}', ?_, by decide⟩
                conv_lhs => rw [h2, tw_dw isJsonWs rest0, hdw, hm]
                simp
          · rw [if_neg h2] at h
            by_cases h3 : c = '['
            · rw [if_pos h3] at h
              cases hdw : rest0.dropWhile isJsonWs with
              | nil =>
                rw [hdw] at h
                simp only [] at h
                obtain ⟨pre, hm⟩ := ihI [] [] v rest h
                refine ⟨'[' :: rest0.takeWhile isJsonWs ++ pre, ']', ?_, by decide⟩
                conv_lhs => rw [h3, tw_dw isJsonWs rest0, hdw, hm]
                simp [List.append_assoc]
              | cons c2 r2 =>
                rw [hdw] at h
                simp only [] at h
                by_cases hc2 : c2 = ']'
                · rw [if_pos hc2] at h
                  cases h
                  refine ⟨'[' :: rest0.takeWhile isJsonWs, ']', ?_, by decide⟩
                  conv_lhs => rw [h3, tw_dw isJsonWs rest0, hdw, hc2]
                  simp
                · rw [if_neg hc2] at h
                  obtain ⟨pre, hm⟩ := ihI (c2 :: r2) [] v rest h
                  refine ⟨'[' :: rest0.takeWhile isJsonWs ++ pre, ']', ?_, by decide⟩
                  conv_lhs => rw [h3, tw_dw isJsonWs rest0, hdw, hm]
                  simp
            · rw [if_neg h3] at h
              by_cases h4 : c = 't'
              · rw [if_pos h4] at h
                by_cases hpre : "true".data.isPrefixOf (c :: rest0) = true
                · rw [if_pos hpre] at h
                  cases h
                  have hsplit := prefix_drop_split "true".data (c :: rest0) hpre
                  exact ⟨['t', 'r', 'u'], 'e', by rw [hsplit]; rfl, by decide⟩
                · rw [if_neg hpre] at h
                  cases h
              · rw [if_neg h4] at h
                by_cases h5 : c = 'f'
                · rw [if_pos h5] at h
                  by_cases hpre : "false".data.isPrefixOf (c :: rest0) = true
                  · rw [if_pos hpre] at h
                    cases h
                    have hsplit := prefix_drop_split "false".data (c :: rest0) hpre
                    exact ⟨['f', 'a', 'l', 's'], 'e', by rw [hsplit]; rfl, by decide⟩
                  · rw [if_neg hpre] at h
                    cases h
                · rw [if_neg h5] at h
                  by_cases h6 : c = 'n'
                  · rw [if_pos h6] at h
                    by_cases hpre : "null".data.isPrefixOf (c :: rest0) = true
                    · rw [if_pos hpre] at h
                      cases h
                      have hsplit := prefix_drop_split "null".data (c :: rest0) hpre
                      exact ⟨['n', 'u', 'l'], 'l', by rw [hsplit]; rfl, by decide⟩
                    · rw [if_neg hpre] at h
                      cases h
                  · rw [if_neg h6] at h
                    by_cases h7 : c = 'N'
                    · rw [if_pos h7] at h
                      by_cases hpre : "NaN".data.isPrefixOf (c :: rest0) = true
                      · rw [if_pos hpre] at h
                        cases h
                        have hsplit := prefix_drop_split "NaN".data (c :: rest0) hpre
                        exact ⟨['N', 'a'], 'N', by rw [hsplit]; rfl, by decide⟩
                      · rw [if_neg hpre] at h
                        cases h
                    · rw [if_neg h7] at h
                      by_cases h8 : c = 'I'
                      · rw [if_pos h8] at h
                        by_cases hpre : "Infinity".data.isPrefixOf (c :: rest0) = true
                        · rw [if_pos hpre] at h
                          cases h
                          have hsplit := prefix_drop_split "Infinity".data (c :: rest0) hpre
                          exact ⟨['I', 'n', 'f', 'i', 'n', 'i', 't'], 'y',
                            by rw [hsplit]; rfl, by decide⟩
                        · rw [if_neg hpre] at h
                          cases h
                      · rw [if_neg h8] at h
                        by_cases h9 : (c = '-' && "Infinity".data.isPrefixOf rest0) = true
                        · rw [if_pos h9] at h
                          cases h
                          rw [Bool.and_eq_true] at h9
                          obtain ⟨hcm, hpre⟩ := h9
                          have hcm2 : c = '-' := of_decide_eq_true hcm
                          have hsplit := prefix_drop_split "Infinity".data rest0 hpre
                          refine ⟨['-', 'I', 'n', 'f', 'i', 'n', 'i', 't'], 'y', ?_, by decide⟩
                          rw [hcm2]
                          conv_lhs => rw [hsplit]
                          rfl
                        · rw [if_neg h9] at h
                          by_cases h10 : (c = '-' || c.isDigit) = true
                          · rw [if_pos h10] at h
                            cases hnum : parseNumberLex (c :: rest0) with
                            | none => rw [hnum] at h; cases h
                            | some pr =>
                              rw [hnum] at h
                              cases pr with
                              | mk lex r =>
                                simp only [] at h
                                cases h
                                obtain ⟨cons, hcs, hne, hall⟩ :=
                                  parseNumberLex_decomp (c :: rest0) lex rest hnum
                                exact last_split cons rest (c :: rest0) hne hcs hall
                          · rw [if_neg h10] at h
                            cases h
    · -- parseItems
      intro cs acc v rest h
      rw [parseItems] at h
      cases hpv : parseVal f cs with
      | none => rw [hpv] at h; cases h
      | some pr =>
        rw [hpv] at h
        cases pr with
        | mk v1 r1 =>
          simp only [] at h
          obtain ⟨pre0, d0, hd0, _⟩ := ihV cs v1 r1 hpv
          cases hdw : r1.dropWhile isJsonWs with
          | nil =>
            rw [hdw] at h
            simp only [] at h
            cases h
          | cons c2 r3 =>
            rw [hdw] at h
            simp only [] at h
            by_cases hc2 : c2 = ','
            · rw [if_pos hc2] at h
              obtain ⟨pre2, hm⟩ := ihI (r3.dropWhile isJsonWs) (acc ++ [v1]) v rest h
              refine ⟨pre0 ++ d0 :: (r1.takeWhile isJsonWs ++
                ',' :: (r3.takeWhile isJsonWs ++ pre2)), ?_⟩
              conv_lhs => rw [hd0, tw_dw isJsonWs r1, hdw, hc2, tw_dw isJsonWs r3, hm]
              simp [List.append_assoc]
            · rw [if_neg hc2] at h
              by_cases hc3 : c2 = ']'
              · rw [if_pos hc3] at h
                cases h
                refine ⟨pre0 ++ d0 :: r1.takeWhile isJsonWs, ?_⟩
                conv_lhs => rw [hd0, tw_dw isJsonWs r1, hdw, hc3]
                simp [List.append_assoc]
              · rw [if_neg hc3] at h
                cases h
    · -- parseMembers
      intro cs acc v rest h
      cases cs with
      | nil => rw [parseMembers] at h; cases h
      | cons c rest0 =>
        rw [parseMembers] at h
        by_cases hq : c = '"'
        · rw [if_pos hq] at h
          cases hpj : parseJString rest0 with
          | none => rw [hpj] at h; cases h
          | some pr =>
            rw [hpj] at h
            cases pr with
            | mk k r1 =>
              simp only [] at h
              obtain ⟨preK, hpk⟩ := parseJString_decomp rest0 k r1 hpj
              cases hdw : r1.dropWhile isJsonWs with
              | nil =>
                rw [hdw] at h
                simp only [] at h
                cases h
              | cons c2 r3 =>
                rw [hdw] at h
                simp only [] at h
                by_cases hc2 : c2 = ':'
                · rw [if_pos hc2] at h
                  cases hpv : parseVal f (r3.dropWhile isJsonWs) with
                  | none => rw [hpv] at h; cases h
                  | some pr2 =>
                    rw [hpv] at h
                    cases pr2 with
                    | mk v1 r4 =>
                      simp only [] at h
                      obtain ⟨pre0, d0, hd0, _⟩ := ihV (r3.dropWhile isJsonWs) v1 r4 hpv
                      cases hdw4 : r4.dropWhile isJsonWs with
                      | nil =>
                        rw [hdw4] at h
                        simp only [] at h
                        cases h
                      | cons c3 r6 =>
                        rw [hdw4] at h
                        simp only [] at h
                        by_cases hc3 : c3 = ','
                        · rw [if_pos hc3] at h
                          obtain ⟨pre2, hm⟩ :=
                            ihM (r6.dropWhile isJsonWs) (insertKV acc k v1) v rest h
                          refine ⟨'"' :: (preK ++ '"' :: (r1.takeWhile isJsonWs ++
                            ':' :: (r3.takeWhile isJsonWs ++ (pre0 ++ d0 ::
                              (r4.takeWhile isJsonWs ++ ',' ::
                                (r6.takeWhile isJsonWs ++ pre2)))))), ?_⟩
                          conv_lhs => rw [hq, hpk, tw_dw isJsonWs r1, hdw, hc2,
                            tw_dw isJsonWs r3, hd0, tw_dw isJsonWs r4, hdw4, hc3,
                            tw_dw isJsonWs r6, hm]
                          simp [List.append_assoc]
                        · rw [if_neg hc3] at h
                          by_cases hc4 : c3 = '}'
                          · rw [if_pos hc4] at h
                            cases h
                            refine ⟨'"' :: (preK ++ '"' :: (r1.takeWhile isJsonWs ++
                              ':' :: (r3.takeWhile isJsonWs ++ (pre0 ++ d0 ::
                                r4.takeWhile isJsonWs)))), ?_⟩
                            conv_lhs => rw [hq, hpk, tw_dw isJsonWs r1, hdw, hc2,
                              tw_dw isJsonWs r3, hd0, tw_dw isJsonWs r4, hdw4, hc4]
                            simp [List.append_assoc]
                          · rw [if_neg hc4] at h
                            cases h
                · rw [if_neg hc2] at h
                  cases h
        · rw [if_neg hq] at h
          cases h

/-- A successful `parseVal` never starts at a whitespace character: every
value starter (quote, brace, bracket, letter, minus, digit) is non-blank. -/
theorem parseVal_head_not_pyWs (f : Nat) (c : Char) (cs : List Char)
    (r : Json × List Char) (h : parseVal f (c :: cs) = some r) : isPyWs c = false := by
  by_contra hws
  rw [Bool.not_eq_false] at hws
  rcases pyWs_cases c hws with hc|hc|hc|hc|hc|hc|hc|hc|hc|hc|hc|hc <;> subst hc <;>
    (cases f with
     | zero => rw [parseVal] at h; cases h
     | succ f => rw [parseVal] at h; simp [Char.isDigit] at h)

/-- Splitting a string around its JSON-stripped core. -/
theorem stripJson_split (s : List Char) :
    ∃ l r, s = l ++ stripJson s ++ r ∧ (∀ c ∈ l, isJsonWs c = true) ∧
      (∀ c ∈ r, isJsonWs c = true) := by
  obtain ⟨r, hr, hrall⟩ := dropEndWhile_decomp isJsonWs (s.dropWhile isJsonWs)
  refine ⟨s.takeWhile isJsonWs, r, ?_, takeWhile_all _ _, hrall⟩
  conv_lhs => rw [tw_dw isJsonWs s, hr]
  simp [List.append_assoc, stripJson]

/-- On a string that `json_loads` accepts, Python's `str.strip()` and JSON's
own whitespace stripping agree, and the stripped core is strip-stable. -/
theorem strip_of_loads (s : List Char) (v : Json) (h : json_loads s = some v) :
    stripPy s = stripJson s ∧ stripJson (stripJson s) = stripJson s := by
  have hps : ∃ vv, parseVal (2 * (stripJson s).length + 2) (stripJson s)
      = some (vv, []) := by
    unfold json_loads at h
    cases hp : parseVal (2 * (stripJson s).length + 2) (stripJson s) with
    | none => rw [hp] at h; cases h
    | some pr =>
      rw [hp] at h
      cases pr with
      | mk v2 rest =>
        cases rest with
        | nil => exact ⟨v2, rfl⟩
        | cons a t => simp only [] at h; cases h
  obtain ⟨vv, hp⟩ := hps
  obtain ⟨pre, d, hdecomp, hdws⟩ := (parse_consume _).1 _ vv [] hp
  have hne : stripJson s ≠ [] := by rw [hdecomp]; simp
  cases hu : stripJson s with
  | nil => exact absurd hu hne
  | cons c u2 =>
    rw [hu] at hdecomp
    have hheadws : isPyWs c = false :=
      parseVal_head_not_pyWs _ c u2 (vv, []) (by rw [← hu]; exact hp)
    obtain ⟨l, r, hs, hlall, hrall⟩ := stripJson_split s
    rw [hu] at hs
    have hcj : isJsonWs c = false := by
      cases hjw : isJsonWs c with
      | false => rfl
      | true =>
        exact absurd (jsonWs_pyWs hjw) (by rw [hheadws]; exact Bool.false_ne_true)
    have hdj : isJsonWs d = false := by
      cases hjw : isJsonWs d with
      | false => rfl
      | true =>
        exact absurd (jsonWs_pyWs hjw) (by rw [hdws]; exact Bool.false_ne_true)
    constructor
    · unfold stripPy
      have e1 : s.dropWhile isPyWs = (c :: u2) ++ r := by
        conv_lhs => rw [hs]
        rw [List.append_assoc]
        rw [dropWhile_append_all isPyWs l _ (fun ch hch => jsonWs_pyWs (hlall ch hch))]
        rw [show ((c :: u2) ++ r : List Char) = c :: (u2 ++ r) from rfl]
        rw [dropWhile_cons_neg isPyWs c _ hheadws]
      have e2 : dropEndWhile isPyWs ((c :: u2) ++ r) = c :: u2 := by
        rw [dropEndWhile_append_all isPyWs _ r (fun ch hch => jsonWs_pyWs (hrall ch hch))]
        rw [hdecomp]
        exact dropEndWhile_last_neg isPyWs pre d hdws
      rw [e1, e2]
    · unfold stripJson
      rw [dropWhile_cons_neg isJsonWs c u2 hcj]
      rw [hdecomp]
      exact dropEndWhile_last_neg isJsonWs pre d hdj

/-- `json.loads(s.strip())` succeeds with the same value whenever
`json.loads(s)` does. -/
theorem json_loads_stripPy (s : List Char) (v : Json) (h : json_loads s = some v) :
    json_loads (stripPy s) = some v := by
  obtain ⟨h1, h2⟩ := strip_of_loads s v h
  unfold json_loads at h ⊢
  rw [h1, h2]
  exact h

/-! ## Claim C3: extractor on already-valid JSON -/

theorem hasSub_false_findSub (pat s : List Char) (h : hasSub pat s = false) :
    findSub pat s = none := by
  unfold hasSub at h
  cases hf : findSub pat s with
  | none => rfl
  | some i => rw [hf] at h; cases h

theorem findSub_backtick_json (s : List Char)
    (h : findSub "```".data s = none) : findSub "```json".data s = none := by
  cases hf : findSub "```json".data s with
  | none => rfl
  | some i =>
    have hpre := findSub_some_prefix _ s i hf
    have h3 : "```".data.isPrefixOf (s.drop i) = true := by
      rw [List.isPrefixOf_iff_prefix] at hpre ⊢
      exact List.IsPrefix.trans (List.isPrefixOf_iff_prefix.mp (by rfl)) hpre
    have hno := findSub_none_no_prefix _ s h i
    rw [hno] at h3
    cases h3

/-- When the response contains no fence at all, the extractor reaches the
whole-response branch `json.loads(response_text.strip())`. -/
theorem extract_no_fence (s : List Char) (v : Json)
    (hfence : hasSub "```".data s = false)
    (h : json_loads (stripPy s) = some v) :
    extract_json_from_response s = some v := by
  have h3 : findSub "```".data s = none := hasSub_false_findSub _ _ hfence
  have h7 : findSub "```json".data s = none := findSub_backtick_json s h3
  unfold extract_json_from_response
  rw [h7, h3, h]

/-- C3 counterexample: the string `{"a": "```json 1 ```"}` is valid JSON
(parsing to an object), but the extractor sees the fence markers inside the
string literal, extracts `1` from between them, and returns `1` instead of
the object.  So extraction on valid JSON is not always the identity. -/
theorem c3_extractor_counterexample :
    json_loads "\x7b\"a\": \"```json 1 ```\"\x7d".data
      = some (Json.obj [("a".data, Json.str "```json 1 ```".data)]) ∧
    extract_json_from_response "\x7b\"a\": \"```json 1 ```\"\x7d".data
      = some (Json.num ['1']) ∧
    extract_json_from_response "\x7b\"a\": \"```json 1 ```\"\x7d".data
      ≠ json_loads "\x7b\"a\": \"```json 1 ```\"\x7d".data := by
  refine ⟨rfl, rfl, ?_⟩
  intro heq
  have hbad : some (Json.num ['1'])
      = some (Json.obj [("a".data, Json.str "```json 1 ```".data)]) := by
    calc some (Json.num ['1'])
        = extract_json_from_response "\x7b\"a\": \"```json 1 ```\"\x7d".data := rfl
      _ = json_loads "\x7b\"a\": \"```json 1 ```\"\x7d".data := heq
      _ = some (Json.obj [("a".data, Json.str "```json 1 ```".data)]) := rfl
  exact Json.noConfusion (Option.some.inj hbad)

/-- C3 (amended): for every string that is valid JSON and contains no fence
marker (no occurrence of three consecutive backticks), the extractor returns
exactly the value obtained by parsing the string directly. -/
theorem c3_extractor_amended (s : List Char) (v : Json)
    (hfence : hasSub "```".data s = false)
    (h : json_loads s = some v) :
    extract_json_from_response s = some v :=
  extract_no_fence s v hfence (json_loads_stripPy s v h)

/-- Witness for `c3_extractor_amended` at the concrete input ` {"a": 1} `. -/
theorem c3_extractor_amended_witness :
    extract_json_from_response " \x7b\"a\": 1\x7d ".data
      = some (Json.obj [("a".data, Json.num ['1'])]) :=
  c3_extractor_amended " \x7b\"a\": 1\x7d ".data
    (Json.obj [("a".data, Json.num ['1'])]) (by rfl) (by rfl)

/-! ## Claim C5: fence priority -/

/-- If the pattern starts with character `b`, `b` does not occur in `a`, and
the pattern is a prefix of `T`, then the first occurrence of the pattern in
`a ++ T` is exactly at index `a.length`. -/
theorem findSub_append_of_clean (pat a T : List Char) (b : Char)
    (hb : pat.head? = some b) (ha : b ∉ a)
    (hpre : pat.isPrefixOf T = true) :
    findSub pat (a ++ T) = some a.length := by
  apply findSub_eq_some_of
  · rw [List.drop_left]
    exact hpre
  · intro k hk
    rw [List.drop_append_of_le_length (Nat.le_of_lt hk)]
    cases hd : a.drop k with
    | nil =>
      exfalso
      have hlen := congrArg List.length hd
      rw [List.length_drop] at hlen
      simp at hlen
      omega
    | cons x xs =>
      rw [List.cons_append]
      cases pat with
      | nil => cases hb
      | cons p pt =>
        have hpb : p = b := by
          injection hb
        subst hpb
        have hxa : x ∈ a := List.drop_subset k a (by rw [hd]; exact List.mem_cons_self x xs)
        have hbx : ¬ p = x := fun he => ha (he ▸ hxa)
        simp only [List.isPrefixOf, Bool.and_eq_false_iff, beq_eq_false_iff_ne, ne_eq]
        exact Or.inl hbx

/-- C5: for a response of the form `a ++ "```json" ++ j ++ "```" ++ rest`
where the prefix `a` and the fenced content `j` contain no backtick and the
(stripped) fenced content parses as JSON, the extractor returns the parse of
the JSON-tagged fence's content — whatever follows (including generic
fences with different content in `rest`) is ignored. -/
theorem c5_fence_priority (a j rest : List Char) (v : Json)
    (ha : Char.ofNat 96 ∉ a) (hj : Char.ofNat 96 ∉ j)
    (hparse : json_loads (stripPy j) = some v) :
    extract_json_from_response
      (a ++ ("```json".data ++ (j ++ ("```".data ++ rest)))) = some v := by
  have h1 : findSub "```json".data
      (a ++ ("```json".data ++ (j ++ ("```".data ++ rest)))) = some a.length := by
    refine findSub_append_of_clean _ _ _ (Char.ofNat 96) (by rfl) ha ?_
    rw [List.isPrefixOf_iff_prefix]
    exact List.prefix_append _ _
  have hdrop1 : (a ++ ("```json".data ++ (j ++ ("```".data ++ rest)))).drop (a.length + 7)
      = j ++ ("```".data ++ rest) := by
    rw [← List.drop_drop, List.drop_left]
    rw [show (7 : Nat) = ("```json".data).length from rfl, List.drop_left]
  have h2 : findSub "```".data (j ++ ("```".data ++ rest)) = some j.length := by
    refine findSub_append_of_clean _ _ _ (Char.ofNat 96) (by rfl) hj ?_
    rw [List.isPrefixOf_iff_prefix]
    exact List.prefix_append _ _
  have hslice : ((a ++ ("```json".data ++ (j ++ ("```".data ++ rest)))).take
      (a.length + 7 + j.length)).drop (a.length + 7) = j := by
    rw [List.drop_take, hdrop1]
    rw [show a.length + 7 + j.length - (a.length + 7) = j.length from by omega]
    exact List.take_left j _
  unfold extract_json_from_response
  rw [h1]
  simp only []
  rw [hdrop1, h2]
  simp only []
  rw [hslice]
  unfold tryParseWithFix
  rw [hparse]

/-- Witness for `c5_fence_priority`: the response
`Here: ```json {"k": 2} ``` and ``` {"k": 3} ``` end` yields the object from
the JSON-tagged fence, not the one from the generic fence. -/
theorem c5_fence_priority_witness :
    extract_json_from_response
      ("Here: ".data ++ ("```json".data ++ (" \x7b\"k\": 2\x7d ".data ++
        ("```".data ++ " and ``` \x7b\"k\": 3\x7d ``` end".data))))
      = some (Json.obj [("k".data, Json.num ['2'])]) :=
  c5_fence_priority "Here: ".data " \x7b\"k\": 2\x7d ".data
    " and ``` \x7b\"k\": 3\x7d ``` end".data
    (Json.obj [("k".data, Json.num ['2'])])
    (by decide) (by decide) (by rfl)

/-! ## Claim C8: `ContentPreprocessor.clean_content`
(src/content_preprocessor.py lines 19-32).  The two `re.sub` calls are
modelled as left-to-right scans: at each position the regex either matches
(the match is consumed and replaced by nothing) or the character is copied
and the scan advances by one. -/

/-- One pass of `re.sub(r'\(https:[^)]*\)', '', ...)`: a match requires the
literal `(https:` followed (greedily, across newlines) by non-`)` characters
up to a closing `)`. -/
def sub1Fuel : Nat → List Char → List Char
  | 0, l => l
  | _ + 1, [] => []
  | f + 1, c :: t =>
    if "(https:".data.isPrefixOf (c :: t) = true then
      match findSub [')'] ((c :: t).drop 7) with
      | some i => sub1Fuel f (((c :: t).drop 7).drop (i + 1))
      | none => c :: sub1Fuel f t
    else c :: sub1Fuel f t

/-- One pass of `re.sub(r'https:[^\s]*', '', ...)`: a match is the literal
`https:` followed by the maximal run of non-whitespace characters. -/
def sub2Fuel : Nat → List Char → List Char
  | 0, l => l
  | _ + 1, [] => []
  | f + 1, c :: t =>
    if "https:".data.isPrefixOf (c :: t) = true then
      sub2Fuel f (((c :: t).drop 6).dropWhile (fun ch => !isPyWs ch))
    else c :: sub2Fuel f t

def sub_paren_urls (s : List Char) : List Char := sub1Fuel s.length s

def sub_bare_urls (s : List Char) : List Char := sub2Fuel s.length s

/-- `ContentPreprocessor.clean_content`: remove `(https:...)` spans, then
remaining `https:` tokens up to the next whitespace. -/
def clean_content (raw_content : List Char) : List Char :=
  sub_bare_urls (sub_paren_urls raw_content)

theorem hasSub_cons (pat : List Char) (c : Char) (t : List Char) :
    hasSub pat (c :: t) = (pat.isPrefixOf (c :: t) || hasSub pat t) := by
  by_cases hp : pat.isPrefixOf (c :: t) = true
  · simp [hasSub, findSub, hp]
  · simp [hasSub, findSub, hp]

theorem dropWhile_head_false (p : Char → Bool) :
    ∀ (l : List Char) (x : Char) (xs : List Char),
      l.dropWhile p = x :: xs → p x = false := by
  intro l
  induction l with
  | nil => intro x xs h; cases h
  | cons c t ih =>
    intro x xs h
    rw [List.dropWhile_cons] at h
    by_cases hc : p c = true
    · rw [if_pos hc] at h
      exact ih x xs h
    · rw [if_neg hc] at h
      injection h with h1 _
      rw [← h1]
      exact Bool.not_eq_true _ |>.mp hc

/-- Whatever the fuel, `sub2Fuel` keeps a whitespace head character. -/
theorem sub2Fuel_ws_head (f : Nat) (w : Char) (r : List Char)
    (hw : isPyWs w = true) : ∃ o, sub2Fuel f (w :: r) = w :: o := by
  cases f with
  | zero => exact ⟨r, rfl⟩
  | succ f2 =>
    have hnp : "https:".data.isPrefixOf (w :: r) = false := by
      rw [show "https:".data = 'h' :: "ttps:".data from rfl]
      simp only [List.isPrefixOf]
      have hhw : ('h' == w) = false := by
        rw [beq_eq_false_iff_ne]
        intro he
        rw [← he] at hw
        exact absurd hw (by decide)
      rw [hhw, Bool.false_and]
    rw [sub2Fuel, if_neg (by rw [hnp]; exact Bool.false_ne_true)]
    exact ⟨sub2Fuel f2 r, rfl⟩

/-- A nonempty whitespace-free prefix of a `sub2Fuel` output was already a
prefix of the input: removals begin with `https:` (whose head `h` survives
only when unmatched) and end right before whitespace or the end. -/
theorem sub2Fuel_prefix_rev : ∀ f t u, u ≠ [] →
    (∀ ch ∈ u, isPyWs ch = false) →
    u.isPrefixOf (sub2Fuel f t) = true → u.isPrefixOf t = true := by
  intro f
  induction f with
  | zero => intro t u _ _ h; exact h
  | succ f2 ih =>
    intro t u hne hws h
    cases t with
    | nil => exact h
    | cons c t2 =>
      by_cases hm : "https:".data.isPrefixOf (c :: t2) = true
      · rw [sub2Fuel, if_pos hm] at h
        exfalso
        cases hr : ((c :: t2).drop 6).dropWhile (fun ch => !isPyWs ch) with
        | nil =>
          rw [hr] at h
          have h0 : sub2Fuel f2 ([] : List Char) = [] := by cases f2 <;> rfl
          rw [h0] at h
          cases u with
          | nil => exact hne rfl
          | cons x xs => simp [List.isPrefixOf] at h
        | cons w r =>
          have hw : isPyWs w = true := by
            have hdw := dropWhile_head_false (fun ch => !isPyWs ch) _ w r hr
            simpa using hdw
          rw [hr] at h
          obtain ⟨o, ho⟩ := sub2Fuel_ws_head f2 w r hw
          rw [ho] at h
          cases u with
          | nil => exact hne rfl
          | cons x xs =>
            simp only [List.isPrefixOf] at h
            rw [Bool.and_eq_true] at h
            have hxw : x = w := by
              have := h.1
              rwa [beq_iff_eq] at this
            have hx : isPyWs x = false := hws x (List.mem_cons_self x xs)
            rw [hxw, hw] at hx
            cases hx
      · rw [sub2Fuel, if_neg hm] at h
        cases u with
        | nil => exact absurd rfl hne
        | cons x xs =>
          simp only [List.isPrefixOf] at h ⊢
          rw [Bool.and_eq_true] at h ⊢
          refine ⟨h.1, ?_⟩
          cases xs with
          | nil => simp [List.isPrefixOf]
          | cons y ys =>
            exact ih t2 (y :: ys) (List.cons_ne_nil y ys)
              (fun ch hch => hws ch (List.mem_cons_of_mem x hch)) h.2

/-- The output of the bare-URL pass contains no `https:` substring. -/
theorem sub2Fuel_no_https : ∀ f s, s.length ≤ f →
    hasSub "https:".data (sub2Fuel f s) = false := by
  intro f
  induction f with
  | zero =>
    intro s hs
    have hnil : s = [] := List.eq_nil_of_length_eq_zero (Nat.le_zero.mp hs)
    subst hnil
    rfl
  | succ f2 ih =>
    intro s hs
    cases s with
    | nil => rfl
    | cons c t =>
      rw [List.length_cons] at hs
      by_cases hm : "https:".data.isPrefixOf (c :: t) = true
      · rw [sub2Fuel, if_pos hm]
        apply ih
        have h1 : (((c :: t).drop 6).dropWhile (fun ch => !isPyWs ch)).length
            ≤ ((c :: t).drop 6).length := (List.dropWhile_suffix _).length_le
        have h2 : ((c :: t).drop 6).length ≤ t.length := by
          rw [List.length_drop, List.length_cons]
          omega
        omega
      · rw [sub2Fuel, if_neg hm]
        rw [hasSub_cons]
        have ht : hasSub "https:".data (sub2Fuel f2 t) = false := ih t (by omega)
        rw [ht, Bool.or_false]
        by_contra hcon
        rw [Bool.not_eq_false] at hcon
        rw [show "https:".data = 'h' :: "ttps:".data from rfl] at hcon
        simp only [List.isPrefixOf] at hcon
        rw [Bool.and_eq_true] at hcon
        have hpt : "ttps:".data.isPrefixOf t = true :=
          sub2Fuel_prefix_rev f2 t "ttps:".data (by decide) (by decide) hcon.2
        apply hm
        rw [show "https:".data = 'h' :: "ttps:".data from rfl]
        simp only [List.isPrefixOf]
        rw [Bool.and_eq_true]
        exact ⟨hcon.1, hpt⟩

/-- On a string with no `https:` substring the bare-URL pass is the
identity. -/
theorem sub2Fuel_id (f : Nat) : ∀ s, hasSub "https:".data s = false →
    sub2Fuel f s = s := by
  induction f with
  | zero => intro s _; rfl
  | succ f2 ih =>
    intro s h
    cases s with
    | nil => rfl
    | cons c t =>
      rw [hasSub_cons, Bool.or_eq_false_iff] at h
      rw [sub2Fuel, if_neg (by rw [h.1]; exact Bool.false_ne_true)]
      rw [ih t h.2]

/-- On a string with no `https:` substring the parenthesised-URL pass is the
identity (a `(https:` match would contain a `https:` substring). -/
theorem sub1Fuel_id (f : Nat) : ∀ s, hasSub "https:".data s = false →
    sub1Fuel f s = s := by
  induction f with
  | zero => intro s _; rfl
  | succ f2 ih =>
    intro s h
    cases s with
    | nil => rfl
    | cons c t =>
      rw [hasSub_cons, Bool.or_eq_false_iff] at h
      have hm : "(https:".data.isPrefixOf (c :: t) = false := by
        by_contra hcon
        rw [Bool.not_eq_false] at hcon
        rw [show "(https:".data = '(' :: "https:".data from rfl] at hcon
        simp only [List.isPrefixOf] at hcon
        rw [Bool.and_eq_true] at hcon
        have hn : findSub "https:".data t = none := by
          unfold hasSub at h
          cases hf : findSub "https:".data t with
          | none => rfl
          | some i => rw [hf] at h; exact absurd h.2 (by simp)
        have hnp := findSub_none_no_prefix _ t hn 0
        rw [List.drop_zero] at hnp
        rw [hnp] at hcon
        exact Bool.false_ne_true hcon.2
      rw [sub1Fuel, if_neg (by rw [hm]; exact Bool.false_ne_true)]
      rw [ih t h.2]

/-- C8: `clean_content` is idempotent; it leaves strings without a `https:`
substring unchanged; and it realises the spec's two concrete examples
(parenthesised URLs removed first, then bare URLs up to whitespace). -/
theorem c8_clean_content_idempotent (s : List Char) :
    clean_content (clean_content s) = clean_content s ∧
    (hasSub "https:".data s = false → clean_content s = s) ∧
    clean_content "See [link](https://x.com/a?b=1) for more".data
      = "See [link] for more".data ∧
    clean_content "Visit https://x.com now".data = "Visit  now".data := by
  refine ⟨?_, ?_, rfl, rfl⟩
  · have hno : hasSub "https:".data (clean_content s) = false :=
      sub2Fuel_no_https _ _ le_rfl
    show sub_bare_urls (sub_paren_urls (clean_content s)) = clean_content s
    unfold sub_paren_urls
    rw [sub1Fuel_id _ _ hno]
    exact sub2Fuel_id _ _ hno
  · intro h
    show sub_bare_urls (sub_paren_urls s) = s
    unfold sub_paren_urls
    rw [sub1Fuel_id _ _ h]
    exact sub2Fuel_id _ _ h

/-- Witness for `c8_clean_content_idempotent` at concrete inputs, the second
one URL-free. -/
theorem c8_clean_content_idempotent_witness :
    clean_content (clean_content "See https://a (https://b) end".data)
      = clean_content "See https://a (https://b) end".data ∧
    clean_content "no urls here".data = "no urls here".data :=
  ⟨(c8_clean_content_idempotent "See https://a (https://b) end".data).1,
   (c8_clean_content_idempotent "no urls here".data).2.1 (by rfl)⟩

/-! ## Claim C9: `load_env_file` (src/ai_parser.py lines 19-38,
src/main_pipeline.py lines 23-42 — the two copies are textually identical).
The file is modelled as its list of lines, the environment as an ordered
association list with Python-dict update semantics. -/

/-- `os.environ[key] = value`: overwrite in place if present, else append. -/
def envSet : List (List Char × List Char) → List Char → List Char →
    List (List Char × List Char)
  | [], k, v => [(k, v)]
  | (k0, v0) :: t, k, v =>
    if k0 = k then (k0, v) :: t else (k0, v0) :: envSet t k v

def envLookup : List (List Char × List Char) → List Char → Option (List Char)
  | [], _ => none
  | (k0, v0) :: t, k => if k0 = k then some v0 else envLookup t k

/-- The loop body of `load_env_file`: strip the line; when it is non-empty,
does not start with `#` and contains `=`, split at the first `=` and set the
stripped key to the stripped value. -/
def processLine (env : List (List Char × List Char)) (line : List Char) :
    List (List Char × List Char) :=
  if stripPy line ≠ [] ∧ ¬ (stripPy line).head? = some '#' ∧
      hasSub ['='] (stripPy line) = true then
    match findSub ['='] (stripPy line) with
    | some i =>
      envSet env (stripPy ((stripPy line).take i))
        (stripPy ((stripPy line).drop (i + 1)))
    | none => env
  else env

/-- `load_env_file`, over the file's lines and a starting environment. -/
def load_env_file (ls : List (List Char)) (env : List (List Char × List Char)) :
    List (List Char × List Char) :=
  ls.foldl processLine env

theorem envLookup_envSet (env : List (List Char × List Char))
    (k v : List Char) : envLookup (envSet env k v) k = some v := by
  induction env with
  | nil => simp [envSet, envLookup]
  | cons p t ih =>
    obtain ⟨k0, v0⟩ := p
    by_cases hk : k0 = k
    · rw [envSet, if_pos hk, envLookup, if_pos hk]
    · rw [envSet, if_neg hk, envLookup, if_neg hk]
      exact ih

/-- C9: a stripped line that is non-empty, does not start with `#` and
contains `=` sets the environment key equal to the stripped text before the
first `=` to the stripped text after it (and `envSet` really binds that key
to that value); a `#`-line leaves the environment unchanged; `load_env_file`
processes lines in order through this per-line step. -/
theorem c9_load_env_file (env : List (List Char × List Char))
    (line : List Char) (ls : List (List Char)) :
    (∀ i, findSub ['='] (stripPy line) = some i → stripPy line ≠ [] →
       ¬ (stripPy line).head? = some '#' →
       processLine env line
         = envSet env (stripPy ((stripPy line).take i))
             (stripPy ((stripPy line).drop (i + 1)))) ∧
    ((stripPy line).head? = some '#' → processLine env line = env) ∧
    (∀ k v, envLookup (envSet env k v) k = some v) ∧
    load_env_file (line :: ls) env = load_env_file ls (processLine env line) := by
  refine ⟨?_, ?_, fun k v => envLookup_envSet env k v, rfl⟩
  · intro i hf hne hhd
    have hsub : hasSub ['='] (stripPy line) = true := by
      unfold hasSub
      rw [hf]
      rfl
    rw [processLine, if_pos ⟨hne, hhd, hsub⟩, hf]
  · intro hhd
    rw [processLine, if_neg]
    intro hcon
    exact hcon.2.1 hhd

/-- Witness for `c9_load_env_file`: the line ` KEY = some value ` binds
`KEY` to `some value`; a `#` comment line changes nothing. -/
theorem c9_load_env_file_witness :
    processLine [] " KEY = some value ".data
      = [("KEY".data, "some value".data)] ∧
    processLine [("A".data, "1".data)] "# comment".data
      = [("A".data, "1".data)] ∧
    envLookup (envSet [] "K".data "V".data) "K".data = some "V".data := by
  refine ⟨?_, ?_, (c9_load_env_file [] [] []).2.2.1 "K".data "V".data⟩
  · rw [(c9_load_env_file [] " KEY = some value ".data []).1 4
      (by rfl) (by decide) (by decide)]
    rfl
  · rw [(c9_load_env_file [("A".data, "1".data)] "# comment".data []).2.1
      (by rfl)]

/-! ## Claim C2: `parse_with_ai_chunked` fallback
(src/ai_parser.py lines 219-318).  The model collaborator is an oracle
`gen` from prompt text to either a response text or a raised exception;
each parse function returns its result together with the list of prompts
it sent to the model, in order. -/

/-- `self.system_prompt` (src/ai_parser.py lines 57-90). -/
def systemPrompt : List Char :=
  "You are an expert data extraction assistant. Your task is to parse the provided markdown text from Polymarket and convert it into a structured JSON object that **preserves market groupings**.\n\nThe final output must be a single JSON object with a root key \"markets\", which is an array. This array can contain two different types of objects:\n\n**1. For Grouped Markets (like the NYC Mayoral Election):**\nWhen you see a category title followed by a list of related sub-markets, create a **group object**. This object must have the following structure:\n```json\n\x7b\n  \"group_title\": \"string\",\n  \"markets\": [\n    \x7b\n      \"market_title\": \"string\",\n      \"market_type\": \"binary\",\n      \"options\": [ \x7b \"name\": \"Yes\", \"odds\": float \x7d, \x7b \"name\": \"No\", \"odds\": float \x7d ]\n    \x7d\n  ]\n\x7d\n```\n- The `market_title` for each item inside the group should be a full question combining the subject and the group title.\n\n**2. For Standalone Markets (like the Fed or Tariff questions):**\nFor markets that are not part of a group, create a **standalone market object**. This object must have the following structure:\n```json\n\x7b\n  \"market_title\": \"string\",\n  \"market_type\": \"binary\" | \"multi_option\",\n  \"options\": [ \x7b \"name\": \"string\", \"odds\": float \x7d ]\n\x7d\n```\n\n**General Rules for all markets:**\n- For all binary markets, the provided percentage is for the \"Yes\" option. You must calculate the \"No\" option as (100% - Yes%).\n- Convert all percentages to decimals (e.g., 81% becomes 0.81). Handle \"<1%\" as 0.005.\n- Do not include any other text or explanations outside of the final JSON object.".data
/-- Outcome of one `self.model.generate_content(prompt)` call: its
`response.text`, or an exception. -/
inductive GenResult where
  | ok (text : List Char)
  | err

/-- The prompt of `parse_with_ai` (line 297). -/
def full_prompt (markdown_content : List Char) : List Char :=
  systemPrompt ++
    "\n\nPlease parse the following Polymarket markdown content:\n\n".data ++
    markdown_content

/-- The per-chunk prompt of `parse_with_ai_chunked` (line 243), `i` the
0-based chunk index. -/
def chunk_prompt (i total : Nat) (chunk : List Char) : List Char :=
  systemPrompt ++
    "\n\nPlease parse the following Polymarket markdown content (chunk ".data ++
    Nat.toDigits 10 (i + 1) ++ " of ".data ++ Nat.toDigits 10 total ++
    "):\n\n".data ++ chunk

/-- `AIPolymarketParser.parse_with_ai` (lines 283-318): one model call on the
whole content; empty response, failed extraction, falsy extraction or an
exception give `None`.  Second component: the prompts sent. -/
def parse_with_ai (gen : List Char → GenResult) (markdown_content : List Char) :
    Option Json × List (List Char) :=
  (match gen (full_prompt markdown_content) with
   | GenResult.err => none
   | GenResult.ok t =>
     if t = [] then none
     else
       match extract_json_from_response t with
       | some j => if pyTruthy j = true then some j else none
       | none => none,
   [full_prompt markdown_content])

/-- Python `len()` on a JSON value: defined for strings, lists and dicts,
a `TypeError` (`none`) otherwise. -/
def lenOf : Json → Option Nat
  | Json.str s => some s.length
  | Json.arr xs => some xs.length
  | Json.obj kvs => some kvs.length
  | _ => none

/-- The condition under which a chunk iteration appends its extracted value
and continues: `if json_data:` is true and the success-path logging
`len(json_data.get('markets', []))` does not raise — so `json_data` must be
a dict whose `markets` value, if present, supports `len`.  (When the logging
raises, the surrounding `except` also falls back to `parse_with_ai`.) -/
def chunkExtractOk (j : Json) : Bool :=
  pyTruthy j &&
    (match j with
     | Json.obj kvs =>
       (match lookupKV kvs "markets".data with
        | some v => (lenOf v).isSome
        | none => true)
     | _ => false)

/-- The `for i, chunk in enumerate(chunks)` loop of `parse_with_ai_chunked`
(lines 238-266) followed by the combine step (lines 268-275): every failure
(exception, empty response, failed or falsy extraction) returns
`parse_with_ai` on the whole original content — the code either returns it
explicitly or raises into the `except` clause that does the same. -/
def chunkLoopGo (gen : List Char → GenResult) (content : List Char)
    (total : Nat) : List (List Char) → Nat → List Json →
      Option Json × List (List Char)
  | [], _, results =>
    match results with
    | [] => (none, [])
    | r :: rs =>
      match combine_market_results (r :: rs) with
      | some combined => (some combined, [])
      | none => ((parse_with_ai gen content).1, (parse_with_ai gen content).2)
  | chunk :: rest, i, results =>
    match gen (chunk_prompt i total chunk) with
    | GenResult.err =>
      ((parse_with_ai gen content).1,
       chunk_prompt i total chunk :: (parse_with_ai gen content).2)
    | GenResult.ok t =>
      if t = [] then
        ((parse_with_ai gen content).1,
         chunk_prompt i total chunk :: (parse_with_ai gen content).2)
      else
        match extract_json_from_response t with
        | some j =>
          if chunkExtractOk j = true then
            ((chunkLoopGo gen content total rest (i + 1) (results ++ [j])).1,
             chunk_prompt i total chunk ::
               (chunkLoopGo gen content total rest (i + 1) (results ++ [j])).2)
          else
            ((parse_with_ai gen content).1,
             chunk_prompt i total chunk :: (parse_with_ai gen content).2)
        | none =>
          ((parse_with_ai gen content).1,
           chunk_prompt i total chunk :: (parse_with_ai gen content).2)

/-- `AIPolymarketParser.parse_with_ai_chunked` (lines 219-281). -/
def parse_with_ai_chunked (gen : List Char → GenResult) (content : List Char)
    (num_chunks : Nat) : Option Json × List (List Char) :=
  chunkLoopGo gen content (chunk_content_by_markets content num_chunks).length
    (chunk_content_by_markets content num_chunks) 0 []

/-- Chunk `i` of `total` succeeds: non-exceptional non-empty response whose
extraction yields a value passing `chunkExtractOk`. -/
def chunkOk (gen : List Char → GenResult) (total i : Nat)
    (chunk : List Char) : Prop :=
  ∃ t j, gen (chunk_prompt i total chunk) = GenResult.ok t ∧ t ≠ [] ∧
    extract_json_from_response t = some j ∧ chunkExtractOk j = true

/-- Chunk `i` of `total` fails in one of the claim's three ways: an
exception, an empty response, or a failed extraction. -/
def chunkFail (gen : List Char → GenResult) (total i : Nat)
    (chunk : List Char) : Prop :=
  gen (chunk_prompt i total chunk) = GenResult.err ∨
  gen (chunk_prompt i total chunk) = GenResult.ok [] ∨
  ∃ t, gen (chunk_prompt i total chunk) = GenResult.ok t ∧ t ≠ [] ∧
    extract_json_from_response t = none

theorem chunkLoopGo_fallback (gen : List Char → GenResult) (content : List Char)
    (total : Nat) :
    ∀ (k : Nat) (cs : List (List Char)) (i : Nat) (results : List Json),
      k < cs.length →
      (∀ m, m < k → chunkOk gen total (i + m) (cs.getD m [])) →
      chunkFail gen total (i + k) (cs.getD k []) →
      chunkLoopGo gen content total cs i results
        = ((parse_with_ai gen content).1,
           (List.range (k + 1)).map
               (fun m => chunk_prompt (i + m) total (cs.getD m []))
             ++ [full_prompt content]) := by
  intro k
  induction k with
  | zero =>
    intro cs i results hk hprev hfail
    cases cs with
    | nil => simp at hk
    | cons c rest =>
      simp only [Nat.add_zero, List.getD_cons_zero] at hfail
      rw [chunkLoopGo]
      rcases hfail with h | h | h
      · rw [h]
        rfl
      · rw [h]
        rfl
      · obtain ⟨t, hg, hne, hex⟩ := h
        rw [hg]
        simp only []
        rw [if_neg hne, hex]
        rfl
  | succ k ih =>
    intro cs i results hk hprev hfail
    cases cs with
    | nil => simp at hk
    | cons c rest =>
      obtain ⟨t, j, hg, hne, hex, hok⟩ := hprev 0 (Nat.succ_pos k)
      simp only [Nat.add_zero, List.getD_cons_zero] at hg
      rw [chunkLoopGo]
      rw [hg]
      simp only []
      rw [if_neg hne, hex]
      simp only []
      rw [if_pos hok]
      rw [ih rest (i + 1) (results ++ [j])
        (by simpa using Nat.lt_of_succ_lt_succ (by simpa using hk))
        (fun m hm => by
          have hp := hprev (m + 1) (by omega)
          simp only [List.getD_cons_succ] at hp
          rw [show i + 1 + m = i + (m + 1) from by omega]
          exact hp)
        (by
          have hf := hfail
          simp only [List.getD_cons_succ] at hf
          rw [show i + 1 + k = i + (k + 1) from by omega]
          exact hf)]
      have htr : chunk_prompt i total c ::
            ((List.range (k + 1)).map
                (fun m => chunk_prompt (i + 1 + m) total (rest.getD m []))
              ++ [full_prompt content])
          = (List.range (k + 1 + 1)).map
                (fun m => chunk_prompt (i + m) total ((c :: rest).getD m []))
              ++ [full_prompt content] := by
        have hfun : ((fun m => chunk_prompt (i + m) total ((c :: rest).getD m []))
              ∘ Nat.succ)
            = (fun m => chunk_prompt (i + 1 + m) total (rest.getD m [])) := by
          funext m
          show chunk_prompt (i + (m + 1)) total ((c :: rest).getD (m + 1) [])
            = chunk_prompt (i + 1 + m) total (rest.getD m [])
          rw [List.getD_cons_succ, show i + (m + 1) = i + 1 + m from by omega]
        conv_rhs => rw [List.range_succ_eq_map, List.map_cons, List.map_map,
          hfun, List.cons_append]
        rfl
      rw [htr]

/-- C2: in chunked parsing, if chunks before index `k` succeed and chunk `k`
fails — by exception, empty model response, or failed JSON extraction — then
`parse_with_ai_chunked` returns exactly `parse_with_ai`'s result on the
entire original content, and its model-call trace is the `k + 1` chunk
prompts issued so far followed by exactly one whole-content prompt: a
whole-pipeline fallback, never a partial merge.  (`num_chunks ≥ 1` keeps the
model inside the code's domain: `num_chunks = 0` raises `ZeroDivisionError`
in the chunker, which the same `except` clause turns into the same
fallback.) -/
theorem c2_chunked_fallback (gen : List Char → GenResult) (content : List Char)
    (num_chunks k : Nat) (h1 : 1 ≤ num_chunks)
    (hk : k < (chunk_content_by_markets content num_chunks).length)
    (hprev : ∀ m, m < k →
      chunkOk gen (chunk_content_by_markets content num_chunks).length m
        ((chunk_content_by_markets content num_chunks).getD m []))
    (hfail : chunkFail gen (chunk_content_by_markets content num_chunks).length k
      ((chunk_content_by_markets content num_chunks).getD k [])) :
    parse_with_ai_chunked gen content num_chunks
      = ((parse_with_ai gen content).1,
         (List.range (k + 1)).map
             (fun m => chunk_prompt m
               (chunk_content_by_markets content num_chunks).length
               ((chunk_content_by_markets content num_chunks).getD m []))
           ++ [full_prompt content]) := by
  have hmain := chunkLoopGo_fallback gen content
    (chunk_content_by_markets content num_chunks).length k
    (chunk_content_by_markets content num_chunks) 0 [] hk
    (fun m hm => by simpa using hprev m hm)
    (by simpa using hfail)
  unfold parse_with_ai_chunked
  rw [hmain]
  simp only [Nat.zero_add]

/-- Model oracle for the C2 witness: the model answers every prompt with an
empty response, so the very first chunk triggers the fallback. -/
def genEmpty : List Char → GenResult := fun _ => GenResult.ok []

/-- Witness for `c2_chunked_fallback`: two chunks, the first one answered
with an empty response; the trace is that chunk's prompt followed by exactly
one whole-content prompt, whose result (here `None` as well) is returned. -/
theorem c2_chunked_fallback_witness :
    parse_with_ai_chunked genEmpty "will a\nwill b".data 2
      = ((parse_with_ai genEmpty "will a\nwill b".data).1,
         (List.range 1).map
             (fun m => chunk_prompt m
               (chunk_content_by_markets "will a\nwill b".data 2).length
               ((chunk_content_by_markets "will a\nwill b".data 2).getD m []))
           ++ [full_prompt "will a\nwill b".data]) :=
  c2_chunked_fallback genEmpty "will a\nwill b".data 2 0 (by decide)
    (by decide) (fun m hm => absurd hm (by omega)) (Or.inr (Or.inl rfl))
